import Mathlib

/-!
Verification development for the subscription-ledger bot (src/botest.py).

The Python source is shallowly embedded: pure helpers become Lean functions,
sheet snapshots become lists of rows, and the external membership system is
passed in as an oracle.  Dates are records of numerals compared
lexicographically, exactly as Python `datetime.date` compares.
-/

/-- A calendar date, as Python `datetime.date` (year, month, day). -/
structure Date where
  year : Nat
  month : Nat
  day : Nat
deriving DecidableEq, Repr

/-- Python date comparison `a <= b`: lexicographic on (year, month, day). -/
def Date.le (a b : Date) : Bool :=
  decide (a.year < b.year ∨ (a.year = b.year ∧
    (a.month < b.month ∨ (a.month = b.month ∧ a.day ≤ b.day))))

/-- Python date comparison `a < b`: strict lexicographic on (year, month, day). -/
def Date.lt (a b : Date) : Bool :=
  decide (a.year < b.year ∨ (a.year = b.year ∧
    (a.month < b.month ∨ (a.month = b.month ∧ a.day < b.day))))

/-- Python `date.min` = 0001-01-01, the sentinel used for unknown dates. -/
def dateMin : Date := ⟨1, 1, 1⟩

/-- Gregorian leap-year rule, as Python `calendar`/`datetime` use it. -/
def isLeap (y : Nat) : Bool :=
  (y % 4 == 0 && y % 100 != 0) || (y % 400 == 0)

/-- Number of days in a month, as validated by the Python `date` constructor. -/
def daysInMonth (y m : Nat) : Nat :=
  if m == 2 then (if isLeap y then 29 else 28)
  else if m == 4 || m == 6 || m == 9 || m == 11 then 30
  else 31

/-- The Python `date(y, m, d)` constructor: validates ranges, else fails. -/
def mkDate? (y m d : Nat) : Option Date :=
  if 1 ≤ y && y ≤ 9999 && 1 ≤ m && m ≤ 12 && 1 ≤ d && d ≤ daysInMonth y m then
    some ⟨y, m, d⟩
  else
    none

/-- Civil date from a proleptic-Gregorian ordinal (0001-01-01 has ordinal 1),
the arithmetic behind Python `date.fromordinal`. -/
def dateOfOrdinal (n : Nat) : Date :=
  let z := n + 305
  let era := z / 146097
  let doe := z % 146097
  let yoe := (doe - doe / 1460 + doe / 36524 - doe / 146096) / 365
  let y := yoe + era * 400
  let doy := doe - (365 * yoe + yoe / 4 - yoe / 100)
  let mp := (5 * doy + 2) / 153
  let d := doy - (153 * mp + 2) / 5 + 1
  let m := if mp < 10 then mp + 3 else mp - 9
  ⟨if m ≤ 2 then y + 1 else y, m, d⟩

/-- A raw cell value as delivered by the sheets client: a missing value,
a string, or a numeric (serial-date) cell. -/
inductive SheetVal where
  | nullv : SheetVal
  | s : String → SheetVal
  | n : Int → SheetVal
deriving DecidableEq, Repr

/-- Python `str(val)` on a cell value. -/
def strOfVal : SheetVal → String
  | .nullv => "None"
  | .s t => t
  | .n v => toString v

/-- The non-breaking space handled by `_parse_sheet_date`. -/
def nbspChar : Char := '\u00A0'

/-- The whitespace class Python strip removes (ASCII whitespace and the
non-breaking space). -/
def isPyWs (c : Char) : Bool := c.isWhitespace || c == nbspChar

/-- Python str.strip() on a character list. -/
def pyStripL (l : List Char) : List Char :=
  ((l.dropWhile isPyWs).reverse.dropWhile isPyWs).reverse

/-- Python str.strip(). -/
def pyStrip (s : String) : String := ⟨pyStripL s.data⟩

/-- Python s.split(sep) on character lists: split at every separator,
keeping empty pieces. -/
def splitCharAux (sep : Char) : List Char → List Char → List (List Char)
  | [], acc => [acc.reverse]
  | c :: cs, acc =>
      if c == sep then acc.reverse :: splitCharAux sep cs []
      else splitCharAux sep cs (c :: acc)

/-- Digits of a decimal numeral folded into a number (assumes all digits). -/
def natOfDigitsL (l : List Char) : Nat :=
  l.foldl (fun a c => a * 10 + (c.toNat - 48)) 0

/-- Match a run of digits of length in [minL, maxL], as the strptime
field regexes do, returning its value. -/
def parseDigits? (minL maxL : Nat) (l : List Char) : Option Nat :=
  if minL ≤ l.length && l.length ≤ maxL && 0 < l.length && l.all Char.isDigit then
    some (natOfDigitsL l)
  else
    none

/-- Python `int(s)`: optional sign, decimal digits, surrounding blanks allowed. -/
def pyInt? (s0 : String) : Option Int :=
  match pyStripL s0.data with
  | [] => none
  | c :: cs =>
      if c == '-' then
        if !cs.isEmpty && cs.all Char.isDigit then some (-(natOfDigitsL cs : Int)) else none
      else if c == '+' then
        if !cs.isEmpty && cs.all Char.isDigit then some (natOfDigitsL cs) else none
      else if (c :: cs).all Char.isDigit then some (natOfDigitsL (c :: cs))
      else none

/-- strptime with format Y-m-d (4-digit year, 1-2 digit month/day), whole
string must match and the date must be constructible. -/
def tryFormatYMD (l : List Char) : Option Date :=
  match splitCharAux '-' l [] with
  | [ys, ms, ds] => do
      let y ← parseDigits? 4 4 ys
      let m ← parseDigits? 1 2 ms
      let d ← parseDigits? 1 2 ds
      mkDate? y m d
  | _ => none

/-- strptime with format d.m.Y or d/m/Y depending on the separator. -/
def tryFormatDMY (sep : Char) (l : List Char) : Option Date :=
  match splitCharAux sep l [] with
  | [ds, ms, ys] => do
      let d ← parseDigits? 1 2 ds
      let m ← parseDigits? 1 2 ms
      let y ← parseDigits? 4 4 ys
      mkDate? y m d
  | _ => none

/-- `_parse_sheet_date`: any cell value to `Date` or unknown.  Empty and
missing values give none; numbers are Google serial dates counted from
1899-12-30 (ordinal 693594); strings are stripped, interior non-breaking
spaces become plain spaces, and the formats Y-m-d, d.m.Y, d/m/Y are tried
in that order. -/
def parseSheetDate : SheetVal → Option Date
  | .nullv => none
  | .n v =>
      let o : Int := 693594 + v
      if 1 ≤ o && o ≤ 3652059 then some (dateOfOrdinal o.toNat) else none
  | .s raw =>
      let t0 := pyStripL raw.data
      if t0.isEmpty then none
      else
        let t := t0.map (fun c => if c == nbspChar then ' ' else c)
        match tryFormatYMD t with
        | some d => some d
        | none =>
            match tryFormatDMY '.' t with
            | some d => some d
            | none => tryFormatDMY '/' t

/-- The header-alias table `HEADER_ALIASES` of the source. -/
def headerAliases (name : String) : List String :=
  if name == "user_id" then ["user_id", "id", "userid"]
  else if name == "username" then ["username", "user", "name"]
  else if name == "дата_оплаты" then ["дата_оплаты", "paid_at", "дата оплаты"]
  else if name == "дата_окончания" then
    ["дата_окончания", "paid_until", "end_date", "дата окончания"]
  else if name == "notified" then ["notified"]
  else if name == "статус" then ["статус", "status"]
  else if name == "full_name" then ["full_name", "fullname", "fio"]
  else if name == "phone_number" then ["phone_number", "phone", "телефон"]
  else if name == "in_channel" then ["in_channel"]
  else [name]

/-- `_find_col`: 0-based index of the first alias of a logical column name
present in the header row. -/
def findCol (headers : List String) (name : String) : Option Nat :=
  (headerAliases name).findSome? (fun a => List.indexOf? a headers)

/-- `_row_is_paid`: a row is eligible iff its period-end cell parses to a
date on or after the given day. -/
def rowIsPaid (headers : List String) (rowVals : List String) (today : Date) : Bool :=
  match findCol headers "дата_окончания" with
  | none => false
  | some idx =>
      if rowVals.length ≤ idx then false
      else
        match parseSheetDate (.s (rowVals.getD idx "")) with
        | none => false
        | some pu => Date.le today pu

/-- The clamp applied by `_calc_end_date` to the configured end day. -/
def clampEndDay (endDay : Int) : Nat :=
  if endDay < 1 then 1 else if endDay > 28 then 28 else endDay.toNat

/-- `_calc_end_date`: period end is always the (clamped) end day of the
month after the reference date, rolling December into January. -/
def calcEndDate (endDay : Int) (today : Date) : Date :=
  let d := clampEndDay endDay
  if today.month == 12 then ⟨today.year + 1, 1, d⟩
  else ⟨today.year, today.month + 1, d⟩

/-- Python enumerate(xs, start): pair every element with its index. -/
def pyEnum {α : Type} (start : Nat) : List α → List (Nat × α)
  | [] => []
  | x :: xs => (start, x) :: pyEnum (start + 1) xs

/-- gspread findall(q): all cells whose text equals q, in row-major order,
as 1-based (row, column) positions.  Row 1 is the header row. -/
def findallCells (sheetRows : List (List String)) (q : String) : List (Nat × Nat) :=
  (pyEnum 1 sheetRows).flatMap (fun p =>
    (pyEnum 1 p.2).filterMap (fun c => if c.2 == q then some (p.1, c.1) else none))

/-- The Gatekeeper decision given a sheet snapshot (`on_join_request` body):
look up every cell matching the identity and approve iff some matched
cell sits in a row whose period end is still active. -/
def gatekeeperFromSheet (sheetRows : List (List String)) (uid : Nat) (today : Date) : Bool :=
  let headers := sheetRows.headD []
  (findallCells sheetRows (toString uid)).any
    (fun rc => rowIsPaid headers (sheetRows.getD (rc.1 - 1) []) today)

/-- `on_join_request` with its try/except: a failed ledger lookup declines. -/
def onJoinRequest (fetch : Except Unit (List (List String))) (uid : Nat) (today : Date) : Bool :=
  match fetch with
  | .error _ => false
  | .ok sheetRows => gatekeeperFromSheet sheetRows uid today

/-- `WANTED_HEADERS_RU` of the source. -/
def WANTED_HEADERS_RU : List String :=
  ["user_id", "username", "дата_оплаты", "дата_окончания",
   "notified", "статус", "full_name", "phone_number", "in_channel"]

/-- `_ensure_headers_ru`: write the wanted headers when row 1 is blank,
else append the missing ones on the right. -/
def ensureHeadersRu (sheetRows : List (List String)) : List (List String) :=
  match sheetRows with
  | [] => [WANTED_HEADERS_RU]
  | headers :: rest =>
      if headers.isEmpty then WANTED_HEADERS_RU :: rest
      else (headers ++ WANTED_HEADERS_RU.filter (fun h => !headers.contains h)) :: rest

/-- Left-pad a numeral to two digits. -/
def pad2 (n : Nat) : String :=
  if n < 10 then "0" ++ toString n else toString n

/-- Left-pad a numeral to four digits. -/
def pad4 (n : Nat) : String :=
  if n < 10 then "000" ++ toString n
  else if n < 100 then "00" ++ toString n
  else if n < 1000 then "0" ++ toString n
  else toString n

/-- Python `date.isoformat()`. -/
def dateIso (d : Date) : String :=
  pad4 d.year ++ "-" ++ pad2 d.month ++ "-" ++ pad2 d.day

/-- The row written by `_approve_user`, laid out by the current header
(`_write_row_by_headers` applied to its row_dict). -/
def upsertValues (headers : List String) (u : Nat) (rawUsername fullName : String)
    (today : Date) (endDay : Int) : List String :=
  let endDate := calcEndDate endDay today
  let username := if rawUsername == "" then "id" ++ toString u else "@" ++ rawUsername
  headers.map (fun h =>
    if h == "user_id" then toString u
    else if h == "username" then username
    else if h == "дата_оплаты" then dateIso today
    else if h == "дата_окончания" then dateIso endDate
    else if h == "notified" then "no"
    else if h == "статус" then "active"
    else if h == "full_name" then fullName
    else if h == "phone_number" then ""
    else "")

/-- A ranged update of row r (1-based) over columns 1..values.length;
cells of the row beyond the range keep their old text. -/
def overwriteRowAt (sheetRows : List (List String)) (r : Nat) (values : List String) :
    List (List String) :=
  (pyEnum 1 sheetRows).map (fun p =>
    if p.1 == r then values ++ p.2.drop values.length else p.2)

/-- The ledger write of `_approve_user`: ensure headers, search the whole
sheet for the identity text, overwrite the first matching row in place or
append a new row at the bottom. -/
def approveUpsert (sheetRows0 : List (List String)) (u : Nat)
    (rawUsername fullName : String) (today : Date) (endDay : Int) : List (List String) :=
  let sheetRows := ensureHeadersRu sheetRows0
  let headers := sheetRows.headD []
  let values := upsertValues headers u rawUsername fullName today endDay
  match (findallCells sheetRows (toString u)).head? with
  | some rc => overwriteRowAt sheetRows rc.1 values
  | none => sheetRows ++ [values]

/-- Data rows (header excluded) whose user_id cell is exactly q. -/
def uidRowsOf (sheetRows : List (List String)) (iu : Nat) (q : String) :
    List (List String) :=
  (sheetRows.drop 1).filter (fun r => r.get? iu == some q)

/-- Data rows of a get_all_values snapshot whose user_id cell parses to u,
under the purge/dedupe extraction rule. -/
def purgeRowUid? (iu : Nat) (r : List String) : Option Int :=
  if iu < r.length && r.getD iu "" != "" then pyInt? (r.getD iu "") else none

/-- Keep the first occurrence of every element, dropping later repeats:
the recursion is fuelled by the list length so that it stays structural.
Dropping repeats never lengthens the tail, so the fuel never runs out. -/
def firstOccDedupF : Nat → List Int → List Int
  | 0, _ => []
  | _ + 1, [] => []
  | fuel + 1, x :: xs => x :: firstOccDedupF fuel (xs.filter (fun y => y != x))

/-- Keep the first occurrence of every element, dropping later repeats
(the key order of a Python dict, and the spec order of a deduplicated
target list). -/
def firstOccDedup (l : List Int) : List Int := firstOccDedupF l.length l

/-- A record row of get_all_records: the header-keyed cell mapping. -/
abbrev Rec := List (String × SheetVal)

/-- Python dict lookup row[k] on a record. -/
def recFindVal (row : Rec) (k : String) : Option SheetVal :=
  (row.find? (fun p => p.1 == k)).map (fun p => p.2)

/-- The alias scan of `remove_expired_subscribers`: the first alias key
present in the record with non-blank text. -/
def firstAliasVal (row : Rec) (name : String) : Option SheetVal :=
  (headerAliases name).findSome? (fun k =>
    match recFindVal row k with
    | some v => if pyStrip (strOfVal v) == "" then none else some v
    | none => none)

/-- The identity of a record row in the removal pass (int of the first
non-blank user_id alias), or none when missing or malformed. -/
def recUid (row : Rec) : Option Int :=
  match firstAliasVal row "user_id" with
  | none => none
  | some v => pyInt? (pyStrip (strOfVal v))

/-- The parsed period end of a record row in the removal pass, or none. -/
def recEnd (row : Rec) : Option Date :=
  match firstAliasVal row "дата_окончания" with
  | none => none
  | some v => parseSheetDate v

/-- by_user[u] of the removal pass: (row number, parsed end) for every
record row whose identity is u and whose period end parses.  Row numbers
count from 2 (row 1 is the header). -/
def cleanItems (records : List Rec) (u : Int) : List (Nat × Date) :=
  (pyEnum 2 records).filterMap (fun p =>
    match recUid p.2, recEnd p.2 with
    | some v, some d => if v == u then some (p.1, d) else none
    | _, _ => none)

/-- The identities appearing in by_user, in first-seen order. -/
def cleanUids (records : List Rec) : List Int :=
  firstOccDedup (records.filterMap (fun row =>
    match recUid row, recEnd row with
    | some v, some _ => some v
    | _, _ => none))

/-- Ascending (period end, row number) order used to sort a user's rows
in the removal pass. -/
def cleanItemLe (a b : Nat × Date) : Bool :=
  Date.lt a.2 b.2 || (a.2 == b.2 && decide (a.1 ≤ b.1))

/-- sorted(rows_u, key=(end, idx)) of the removal pass. -/
def CleanLeP (a b : Nat × Date) : Prop := cleanItemLe a b = true

instance : DecidableRel CleanLeP := fun a b => instDecidableEqBool (cleanItemLe a b) true

def sortCleanItems (items : List (Nat × Date)) : List (Nat × Date) :=
  items.insertionSort CleanLeP

/-- Python max of two dates. -/
def dateMaxOf (a b : Date) : Date := if Date.le a b then b else a

/-- Python max over a list of dates (none when empty). -/
def maxEnd? : List Date → Option Date
  | [] => none
  | x :: xs => some (xs.foldl dateMaxOf x)

/-- The removal-candidate test of the source: the identity has ledger rows
with parsed end dates and their maximum is strictly before the cutoff. -/
def isKickCandidate (records : List Rec) (monthStart : Date) (u : Int) : Bool :=
  match maxEnd? ((sortCleanItems (cleanItems records u)).map (fun x => x.2)) with
  | none => false
  | some m => Date.lt m monthStart

/-- Rows of identity u marked for deletion by the removal pass: all of its
dated rows when u is kicked, else only those strictly below its maximum. -/
def cleanDeleteFor (records : List Rec) (monthStart : Date) (u : Int) : List Nat :=
  let its := sortCleanItems (cleanItems records u)
  match maxEnd? (its.map (fun x => x.2)) with
  | none => []
  | some m =>
      if Date.lt m monthStart then its.map (fun x => x.1)
      else (its.filter (fun x => Date.lt x.2 m)).map (fun x => x.1)

/-- users_to_kick of the removal pass (in first-seen identity order). -/
def usersToKick (records : List Rec) (monthStart : Date) : List Int :=
  (cleanUids records).filter (isKickCandidate records monthStart)

/-- rows_to_delete of the removal pass. -/
def cleanRowsToDelete (records : List Rec) (monthStart : Date) : List Nat :=
  (cleanUids records).flatMap (cleanDeleteFor records monthStart)

/-- The cutoff actually computed by the source: today.replace(day=19). -/
def monthStartCode (today : Date) : Date := ⟨today.year, today.month, 19⟩

/-- Modelled from the spec: the cutoff the spec and the source docstrings
state, the first day of the current month. -/
def monthStartDocumented (today : Date) : Date := ⟨today.year, today.month, 1⟩

/-- The record snapshot left after the batched deletions of a fully
successful pass: rows whose 2-based row number is not marked. -/
def applyDeletesRec (records : List Rec) (dels : List Nat) : List Rec :=
  (pyEnum 2 records).filterMap (fun p =>
    if dels.contains p.1 then none else some p.2)

/-- The parsed period end of a get_all_values data row in the dedupe pass:
parsed when the column is inside the row, else none. -/
def rowPu (ip : Nat) (r : List String) : Option Date :=
  if ip < r.length then parseSheetDate (.s (r.getD ip "")) else none

/-- per_uid[u] of `purge_duplicate_rows`: (row number, parsed period end or
none) for every data row whose user_id cell parses to u. -/
def purgeItems (data : List (List String)) (iu ip : Nat) (u : Int) :
    List (Nat × Option Date) :=
  (pyEnum 2 data).filterMap (fun p =>
    match purgeRowUid? iu p.2 with
    | some v => if v == u then some (p.1, rowPu ip p.2) else none
    | none => none)

/-- The identities appearing in per_uid, in first-seen order. -/
def purgeUids (data : List (List String)) (iu : Nat) : List Int :=
  firstOccDedup (data.filterMap (purgeRowUid? iu))

/-- Ascending (period end or date.min, row number) order on dedupe items. -/
def puKeyLe (a b : Nat × Option Date) : Bool :=
  let da := a.2.getD dateMin
  let db := b.2.getD dateMin
  Date.lt da db || (da == db && decide (a.1 ≤ b.1))

/-- Strict version of the dedupe ordering. -/
def puKeyLt (a b : Nat × Option Date) : Bool :=
  let da := a.2.getD dateMin
  let db := b.2.getD dateMin
  Date.lt da db || (da == db && decide (a.1 < b.1))

/-- sorted(items, key=(end or date.min, idx), reverse=True). -/
def PuGeP (a b : Nat × Option Date) : Prop := puKeyLe b a = true

instance : DecidableRel PuGeP := fun a b => instDecidableEqBool (puKeyLe b a) true

def purgeSorted (items : List (Nat × Option Date)) : List (Nat × Option Date) :=
  items.insertionSort PuGeP

/-- The rows of identity u deleted by the dedupe pass: everything after the
head of the descending sort, and nothing when u has at most one row. -/
def purgeDeleteFor (data : List (List String)) (iu ip : Nat) (u : Int) : List Nat :=
  let items := purgeItems data iu ip u
  if items.length ≤ 1 then []
  else ((purgeSorted items).drop 1).map (fun x => x.1)

/-- to_delete of `purge_duplicate_rows`, deduplicated and sorted descending
exactly as issued to the store. -/
def purgeToDelete (headers : List String) (data : List (List String)) : List Nat :=
  match findCol headers "user_id", findCol headers "дата_окончания" with
  | some iu, some ip =>
      (((purgeUids data iu).flatMap (purgeDeleteFor data iu ip)).dedup).insertionSort
        (fun a b => b ≤ a)
  | _, _ => []

/-- The data rows left after the dedupe pass deletes its marked rows. -/
def applyDeletesData (data : List (List String)) (dels : List Nat) :
    List (List String) :=
  (pyEnum 2 data).filterMap (fun p =>
    if dels.contains p.1 then none else some p.2)

/-- Data rows whose user_id cell parses to u (content view, purge rule). -/
def uidDataRows (data : List (List String)) (iu : Nat) (u : Int) :
    List (List String) :=
  data.filter (fun r => purgeRowUid? iu r == some u)

/-- The authoritative row of identity u chosen by the dedupe ordering:
the content of the head of the descending sort. -/
def authRow? (headers : List String) (data : List (List String)) (u : Int) :
    Option (List String) :=
  match findCol headers "user_id", findCol headers "дата_окончания" with
  | some iu, some ip =>
      match (purgeSorted (purgeItems data iu ip u)).head? with
      | some b => data.get? (b.1 - 2)
      | none => none
  | _, _ => none

/-- The identity of a data row in the audit pass (strip, then int). -/
def auditUid? (iu : Nat) (r : List String) : Option Int :=
  let raw := pyStrip (r.getD iu "")
  if raw == "" then none else pyInt? raw

/-- by_uid keys of the audit pass, in first-seen order. -/
def auditUids (data : List (List String)) (iu : Nat) : List Int :=
  firstOccDedup (data.filterMap (auditUid? iu))

/-- Row numbers (2-based) of the audit rows belonging to identity u. -/
def auditRowsOf (data : List (List String)) (iu : Nat) (u : Int) : List Nat :=
  (pyEnum 2 data).filterMap (fun p =>
    if auditUid? iu p.2 == some u then some p.1 else none)

/-- Live-membership check of the audit pass: present iff the lookup
succeeds with status member, administrator or creator; a failed lookup
counts as absent. -/
def inChat (memb : Int → Option String) (u : Int) : Bool :=
  match memb u with
  | some st => st == "member" || st == "administrator" || st == "creator"
  | none => false

/-- status_map of the audit pass: the dict written per identity group,
modelled as a function updated point by point. -/
def statusMapFn (data : List (List String)) (iu : Nat) (memb : Int → Option String) :
    Nat → Option String :=
  (auditUids data iu).foldl
    (fun m u =>
      (auditRowsOf data iu u).foldl
        (fun m2 rn => fun x =>
          if x == rn then some (if inChat memb u then "yes" else "no") else m2 x)
        m)
    (fun _ => none)

/-- The in_channel column written back by the audit pass: one value per
data row over the contiguous row range 2 .. 1+len(data). -/
def auditValues (data : List (List String)) (iu : Nat) (memb : Int → Option String) :
    List (List String) :=
  (List.range data.length).map (fun k => [(statusMapFn data iu memb (k + 2)).getD ""])

/-- The (first row, last row) of the single ranged audit write. -/
def auditRange (data : List (List String)) : Nat × Nat := (2, 1 + data.length)

/-- The per-row identity extraction of the broadcast loop: strip the
user_id cell, skip blanks, parse an int, skip failures. -/
def broadcastRowUid? (iu : Nat) (r : List String) : Option Int :=
  let raw := pyStrip (r.getD iu "")
  if raw == "" then none else pyInt? raw

/-- The raw identity stream a broadcast reads from the snapshot, before
deduplication (blank and malformed user_id cells are skipped). -/
def broadcastRawUids (data : List (List String)) (iu : Nat) : List Int :=
  data.filterMap (broadcastRowUid? iu)

/-- The broadcast target list: the seen-set loop of the source.  The seen
set and the target list always hold the same identities, so one list
serves as both. -/
def broadcastTargets (data : List (List String)) (iu : Nat) : List Int :=
  data.foldl
    (fun acc r =>
      match broadcastRowUid? iu r with
      | none => acc
      | some uid => if acc.contains uid then acc else acc ++ [uid])
    []

/-- One observable step of the broadcast loop: a delivery attempt with its
outcome, or the fixed rate-limit pause. -/
inductive BEvent where
  | msg : Int → Bool → BEvent
  | pause : BEvent
deriving DecidableEq, Repr

/-- The broadcast loop over the target list: idx counts attempts so far;
after every attempt whose 1-based index is divisible by 12 the loop
sleeps. -/
def btraceAux (deliver : Int → Bool) : Nat → List Int → List BEvent
  | _, [] => []
  | idx, u :: rest =>
      BEvent.msg u (deliver u) ::
        ((if (idx + 1) % 12 == 0 then [BEvent.pause] else []) ++
          btraceAux deliver (idx + 1) rest)

/-- The full broadcast trace. -/
def btrace (deliver : Int → Bool) (targets : List Int) : List BEvent :=
  btraceAux deliver 0 targets

/-- The (sent, failed) tally accumulated by the broadcast loop. -/
def broadcastCounts (deliver : Int → Bool) (targets : List Int) : Nat × Nat :=
  targets.foldl
    (fun acc u => if deliver u then (acc.1 + 1, acc.2) else (acc.1, acc.2 + 1))
    (0, 0)

/-- The delivery attempts of a trace, in order. -/
def msgEvents (tr : List BEvent) : List (Int × Bool) :=
  tr.filterMap (fun e =>
    match e with
    | .msg u ok => some (u, ok)
    | .pause => none)

/-- For each pause of a trace, how many delivery attempts precede it. -/
def pauseMsgCountsAux : Nat → List BEvent → List Nat
  | _, [] => []
  | k, .msg _ _ :: rest => pauseMsgCountsAux (k + 1) rest
  | k, .pause :: rest => k :: pauseMsgCountsAux k rest

/-- Attempt counts at which the trace pauses. -/
def pauseMsgCounts (tr : List BEvent) : List Nat := pauseMsgCountsAux 0 tr

/-! ### Concrete sample data for the scenario evaluations -/

/-- A minimal ledger record with a user id and period-end text. -/
def recRow (uid endTxt : String) : Rec :=
  [("user_id", SheetVal.s uid), ("дата_окончания", SheetVal.s endTxt)]

/-- Scenario rows: identity 1 with ends 2025-03-20 and 2025-01-10, identity 2
with end 2024-12-01, one identity with 2025-03-10, and identity 5 with one
dated and one unparseable row. -/
def recU1a : Rec := recRow "1" "2025-03-20"

def recU1b : Rec := recRow "1" "2025-01-10"

def recU2 : Rec := recRow "2" "2024-12-01"

def recMid : Rec := recRow "1" "2025-03-10"

def recK1 : Rec := recRow "5" "2024-01-01"

def recK2 : Rec := recRow "5" "oops"

/-- The two-column header of the dedupe scenarios. -/
def hdrUP : List String := ["user_id", "дата_окончания"]

/-- A duplicated data row with a tied period end. -/
def tieRow : List String := ["1", "2025-03-20"]

/-- The record form of the tied row. -/
def tieRec : Rec := recRow "1" "2025-03-20"

/-! ### Order lemmas for dates -/

theorem Date.le_self (a : Date) : Date.le a a = true := by
  simp [Date.le]

theorem Date.le_total2 (a b : Date) : Date.le a b = true ∨ Date.le b a = true := by
  simp only [Date.le, decide_eq_true_eq]
  omega

theorem Date.le_trans2 {a b c : Date} (h1 : Date.le a b = true) (h2 : Date.le b c = true) :
    Date.le a c = true := by
  simp only [Date.le, decide_eq_true_eq] at h1 h2 ⊢
  omega

theorem Date.lt_iff_not_ge {a b : Date} : Date.lt a b = true ↔ ¬ Date.le b a = true := by
  simp only [Date.lt, Date.le, decide_eq_true_eq]
  omega

theorem Date.le_of_not_le {a b : Date} (h : ¬ Date.le a b = true) : Date.le b a = true := by
  rcases Date.le_total2 a b with h1 | h1
  · exact absurd h1 h
  · exact h1

theorem Date.eq_of_le_le {a b : Date} (h1 : Date.le a b = true) (h2 : Date.le b a = true) :
    a = b := by
  cases a; cases b
  simp only [Date.le, decide_eq_true_eq] at h1 h2
  simp only [Date.mk.injEq]
  omega

theorem Date.lt_of_le_ne {a b : Date} (h1 : Date.le a b = true) (h2 : a ≠ b) :
    Date.lt a b = true := by
  rw [Date.lt_iff_not_ge]
  intro hba
  exact h2 (Date.eq_of_le_le h1 hba)

theorem Date.le_of_lt2 {a b : Date} (h : Date.lt a b = true) : Date.le a b = true := by
  simp only [Date.lt, decide_eq_true_eq] at h
  simp only [Date.le, decide_eq_true_eq]
  omega

/-! ### Python max over date lists -/

theorem foldl_dateMaxOf_init : ∀ (xs : List Date) (a : Date),
    Date.le a (xs.foldl dateMaxOf a) = true := by
  intro xs
  induction xs with
  | nil => intro a; exact Date.le_self a
  | cons x xs ih =>
      intro a
      have h2 : Date.le a (dateMaxOf a x) = true := by
        unfold dateMaxOf
        by_cases hle : Date.le a x = true
        · simp [hle]
        · simp [hle, Date.le_self]
      exact Date.le_trans2 h2 (ih (dateMaxOf a x))

theorem foldl_dateMaxOf_mem : ∀ (xs : List Date) (a : Date),
    xs.foldl dateMaxOf a = a ∨ xs.foldl dateMaxOf a ∈ xs := by
  intro xs
  induction xs with
  | nil => intro a; exact Or.inl rfl
  | cons x xs ih =>
      intro a
      simp only [List.foldl_cons]
      rcases ih (dateMaxOf a x) with h | h
      · rw [h]
        unfold dateMaxOf
        by_cases hle : Date.le a x = true
        · simp [hle]
        · simp [hle]
      · exact Or.inr (List.mem_cons_of_mem _ h)

theorem foldl_dateMaxOf_ub : ∀ (xs : List Date) (a x : Date), x ∈ xs →
    Date.le x (xs.foldl dateMaxOf a) = true := by
  intro xs
  induction xs with
  | nil => intro a x hx; cases hx
  | cons y ys ih =>
      intro a x hx
      simp only [List.foldl_cons]
      rcases List.mem_cons.mp hx with rfl | hmem
      · have h2 : Date.le x (dateMaxOf a x) = true := by
          unfold dateMaxOf
          by_cases hle : Date.le a x = true
          · simp [hle, Date.le_self]
          · simpa [hle] using Date.le_of_not_le hle
        exact Date.le_trans2 h2 (foldl_dateMaxOf_init ys (dateMaxOf a x))
      · exact ih (dateMaxOf a y) x hmem

theorem maxEnd?_mem {l : List Date} {m : Date} (h : maxEnd? l = some m) : m ∈ l := by
  cases l with
  | nil => cases h
  | cons x xs =>
      simp only [maxEnd?, Option.some.injEq] at h
      rcases foldl_dateMaxOf_mem xs x with h2 | h2
      · rw [h] at h2; rw [h2]; exact List.mem_cons_self x xs
      · rw [h] at h2; exact List.mem_cons_of_mem _ h2

theorem maxEnd?_ub {l : List Date} {m : Date} (h : maxEnd? l = some m) :
    ∀ x ∈ l, Date.le x m = true := by
  cases l with
  | nil => cases h
  | cons y ys =>
      simp only [maxEnd?, Option.some.injEq] at h
      intro x hx
      rcases List.mem_cons.mp hx with rfl | hmem
      · rw [← h]; exact foldl_dateMaxOf_init ys x
      · rw [← h]; exact foldl_dateMaxOf_ub ys y x hmem

/-! ### Enumerate lemmas -/

theorem pyEnum_fst_ge {α : Type} : ∀ (l : List α) (n : Nat) (q : Nat × α),
    q ∈ pyEnum n l → n ≤ q.1 := by
  intro l
  induction l with
  | nil => intro n q hq; cases hq
  | cons x xs ih =>
      intro n q hq
      rcases List.mem_cons.mp hq with rfl | hmem
      · exact Nat.le_refl n
      · exact Nat.le_of_succ_le (ih (n + 1) q hmem)

theorem mem_pyEnum {α : Type} : ∀ (l : List α) (n i : Nat) (a : α),
    (i, a) ∈ pyEnum n l ↔ n ≤ i ∧ l.get? (i - n) = some a := by
  intro l
  induction l with
  | nil => intro n i a; simp [pyEnum]
  | cons x xs ih =>
      intro n i a
      constructor
      · intro h
        rcases List.mem_cons.mp h with heq | hmem
        · obtain ⟨rfl, rfl⟩ : i = n ∧ a = x := by simpa using heq
          exact ⟨Nat.le.refl, by simp⟩
        · obtain ⟨h1, h2⟩ := (ih (n + 1) i a).mp hmem
          refine ⟨Nat.le_of_succ_le h1, ?_⟩
          have he : i - n = (i - (n + 1)) + 1 := by omega
          rw [he]
          simpa using h2
      · rintro ⟨h1, h2⟩
        by_cases hin : i = n
        · subst hin
          simp only [Nat.sub_self, List.get?_cons_zero, Option.some.injEq] at h2
          exact List.mem_cons.mpr (Or.inl (by rw [h2]))
        · have hgt : n + 1 ≤ i := by omega
          refine List.mem_cons.mpr (Or.inr ((ih (n + 1) i a).mpr ⟨hgt, ?_⟩))
          have he : i - n = (i - (n + 1)) + 1 := by omega
          rw [he] at h2
          simpa using h2

theorem pyEnum_append {α : Type} : ∀ (l1 l2 : List α) (n : Nat),
    pyEnum n (l1 ++ l2) = pyEnum n l1 ++ pyEnum (n + l1.length) l2 := by
  intro l1
  induction l1 with
  | nil => intro l2 n; simp [pyEnum]
  | cons x xs ih =>
      intro l2 n
      simp only [List.cons_append, pyEnum, List.length_cons, List.append_eq, ih]
      have he : n + (xs.length + 1) = n + 1 + xs.length := by omega
      rw [he]

/-! ### First-occurrence deduplication -/

theorem firstOccDedupF_nil : ∀ (fuel : Nat), firstOccDedupF fuel [] = [] := by
  intro fuel
  cases fuel <;> rfl

theorem firstOccDedupF_congr : ∀ (f1 f2 : Nat) (l : List Int),
    l.length ≤ f1 → l.length ≤ f2 → firstOccDedupF f1 l = firstOccDedupF f2 l := by
  intro f1
  induction f1 with
  | zero =>
      intro f2 l h1 h2
      have : l = [] := List.length_eq_zero.mp (Nat.le_zero.mp h1)
      subst this
      rw [firstOccDedupF_nil, firstOccDedupF_nil]
  | succ f ih =>
      intro f2 l h1 h2
      cases l with
      | nil => rw [firstOccDedupF_nil, firstOccDedupF_nil]
      | cons x xs =>
          cases f2 with
          | zero => simp at h2
          | succ g =>
              simp only [firstOccDedupF]
              congr 1
              have hlen := List.length_filter_le (fun y => y != x) xs
              simp only [List.length_cons, Nat.succ_le_succ_iff] at h1 h2
              exact ih g _ (Nat.le_trans hlen h1) (Nat.le_trans hlen h2)

theorem firstOccDedup_cons (x : Int) (xs : List Int) :
    firstOccDedup (x :: xs) = x :: firstOccDedup (xs.filter (fun y => y != x)) := by
  unfold firstOccDedup
  simp only [List.length_cons, firstOccDedupF]
  congr 1
  exact firstOccDedupF_congr xs.length _ _ (List.length_filter_le _ _) (Nat.le_refl _)

theorem firstOccDedup_sub : ∀ (l : List Int) (x : Int), x ∈ firstOccDedup l → x ∈ l := by
  have key : ∀ (fuel : Nat) (l : List Int), l.length ≤ fuel →
      ∀ x, x ∈ firstOccDedup l → x ∈ l := by
    intro fuel
    induction fuel with
    | zero =>
        intro l h1 x hx
        have : l = [] := List.length_eq_zero.mp (Nat.le_zero.mp h1)
        subst this
        exact hx
    | succ f ih =>
        intro l h1 x hx
        cases l with
        | nil => exact hx
        | cons y ys =>
            rw [firstOccDedup_cons] at hx
            rcases List.mem_cons.mp hx with rfl | hmem
            · exact List.mem_cons_self _ _
            · simp only [List.length_cons, Nat.succ_le_succ_iff] at h1
              have hle : (ys.filter (fun y2 => y2 != y)).length ≤ f :=
                Nat.le_trans (List.length_filter_le _ _) h1
              exact List.mem_cons_of_mem _
                (List.mem_of_mem_filter (ih _ hle x hmem))
  exact fun l => key l.length l (Nat.le_refl _)

theorem mem_firstOccDedup : ∀ (l : List Int) (x : Int), x ∈ firstOccDedup l ↔ x ∈ l := by
  have key : ∀ (fuel : Nat) (l : List Int), l.length ≤ fuel →
      ∀ x, x ∈ firstOccDedup l ↔ x ∈ l := by
    intro fuel
    induction fuel with
    | zero =>
        intro l h1 x
        have : l = [] := List.length_eq_zero.mp (Nat.le_zero.mp h1)
        subst this
        exact Iff.rfl
    | succ f ih =>
        intro l h1 x
        cases l with
        | nil => exact Iff.rfl
        | cons y ys =>
            constructor
            · exact firstOccDedup_sub (y :: ys) x
            · intro hx
              rw [firstOccDedup_cons]
              rcases List.mem_cons.mp hx with rfl | hmem
              · exact List.mem_cons_self _ _
              · by_cases hxy : x = y
                · subst hxy; exact List.mem_cons_self _ _
                · refine List.mem_cons_of_mem _ ?_
                  simp only [List.length_cons, Nat.succ_le_succ_iff] at h1
                  have hle : (ys.filter (fun y2 => y2 != y)).length ≤ f :=
                    Nat.le_trans (List.length_filter_le _ _) h1
                  rw [ih _ hle x]
                  refine List.mem_filter.mpr ⟨hmem, ?_⟩
                  simpa using hxy
  exact fun l => key l.length l (Nat.le_refl _)

theorem nodup_firstOccDedup : ∀ (l : List Int), (firstOccDedup l).Nodup := by
  have key : ∀ (fuel : Nat) (l : List Int), l.length ≤ fuel → (firstOccDedup l).Nodup := by
    intro fuel
    induction fuel with
    | zero =>
        intro l h1
        have : l = [] := List.length_eq_zero.mp (Nat.le_zero.mp h1)
        subst this
        exact List.nodup_nil
    | succ f ih =>
        intro l h1
        cases l with
        | nil => exact List.nodup_nil
        | cons y ys =>
            rw [firstOccDedup_cons]
            simp only [List.length_cons, Nat.succ_le_succ_iff] at h1
            have hle : (ys.filter (fun y2 => y2 != y)).length ≤ f :=
              Nat.le_trans (List.length_filter_le _ _) h1
            refine List.Nodup.cons ?_ (ih _ hle)
            intro hmem
            have hx := firstOccDedup_sub _ _ hmem
            have := (List.mem_filter.mp hx).2
            simp at this
  exact fun l => key l.length l (Nat.le_refl _)

/-! ### List access helpers -/

theorem getD_of_get? {α : Type} {l : List α} {n : Nat} {a : α} (d : α)
    (h : l.get? n = some a) : l.getD n d = a := by
  induction l generalizing n with
  | nil => cases h
  | cons x xs ih =>
      cases n with
      | zero =>
          simp only [List.get?_cons_zero, Option.some.injEq] at h
          simp [h]
      | succ k =>
          simp only [List.get?_cons_succ] at h
          simpa using ih h

theorem getD_of_len_le {α : Type} {l : List α} {n : Nat} (d : α)
    (h : l.length ≤ n) : l.getD n d = d := by
  induction l generalizing n with
  | nil => cases n <;> rfl
  | cons x xs ih =>
      cases n with
      | zero => simp at h
      | succ k =>
          simp only [List.length_cons, Nat.succ_le_succ_iff] at h
          simpa using ih h

theorem get?_drop_one {α : Type} (l : List α) (k : Nat) :
    (l.drop 1).get? k = l.get? (k + 1) := by
  cases l with
  | nil => simp
  | cons x xs => simp

/-! ### findall lemmas -/

theorem mem_findallCells {sheetRows : List (List String)} {q : String} {r c : Nat} :
    (r, c) ∈ findallCells sheetRows q ↔
      1 ≤ r ∧ 1 ≤ c ∧ ∃ row, sheetRows.get? (r - 1) = some row ∧ row.get? (c - 1) = some q := by
  unfold findallCells
  rw [List.mem_flatMap]
  constructor
  · rintro ⟨⟨i, row⟩, hp, hin⟩
    obtain ⟨⟨j, cell⟩, hc, heq⟩ := List.mem_filterMap.mp hin
    by_cases hq : cell == q
    · simp only [hq, if_true, Option.some.injEq, Prod.mk.injEq] at heq
      obtain ⟨rfl, rfl⟩ := heq
      obtain ⟨hi1, hrow⟩ := (mem_pyEnum _ _ _ _).mp hp
      obtain ⟨hj1, hcell⟩ := (mem_pyEnum _ _ _ _).mp hc
      have hcq : cell = q := by simpa using hq
      subst hcq
      exact ⟨hi1, hj1, row, hrow, hcell⟩
    · simp [hq] at heq
  · rintro ⟨hr, hc, row, hrow, hcell⟩
    refine ⟨(r, row), (mem_pyEnum _ _ _ _).mpr ⟨hr, hrow⟩, ?_⟩
    refine List.mem_filterMap.mpr ⟨(c, q), (mem_pyEnum _ _ _ _).mpr ⟨hc, hcell⟩, ?_⟩
    simp

theorem findallCells_eq_nil {sheetRows : List (List String)} {q : String}
    (h : ∀ row ∈ sheetRows, ∀ c ∈ row, c ≠ q) :
    findallCells sheetRows q = [] := by
  rw [List.eq_nil_iff_forall_not_mem]
  rintro ⟨r, c⟩ hmem
  obtain ⟨hr, hc, row, hrow, hcell⟩ := mem_findallCells.mp hmem
  exact h row (List.get?_mem hrow) q (List.get?_mem hcell) rfl

/-! ### Claim theorems -/

/-- C2: for every input date and configured end day, the subscription policy
returns a date in the calendar month immediately after the input (rolling to
January of the next year in December) whose day is the end day clamped into
[1, 28]; in particular 2025-01-15 with day 20 gives 2025-02-20 and 2025-12-05
with day 31 gives 2026-01-28. -/
theorem claim_C2_calc_end_date :
    (∀ (endDay : Int) (today : Date),
        ((calcEndDate endDay today).year, (calcEndDate endDay today).month) =
          (if today.month = 12 then (today.year + 1, 1) else (today.year, today.month + 1)) ∧
        ((calcEndDate endDay today).day : Int) = max 1 (min 28 endDay) ∧
        1 ≤ (calcEndDate endDay today).day ∧ (calcEndDate endDay today).day ≤ 28) ∧
    calcEndDate 20 ⟨2025, 1, 15⟩ = ⟨2025, 2, 20⟩ ∧
    calcEndDate 31 ⟨2025, 12, 5⟩ = ⟨2026, 1, 28⟩ := by
  refine ⟨?_, by decide, by decide⟩
  intro e t
  by_cases h : t.month = 12
  · simp [calcEndDate, clampEndDay, h]
    split_ifs <;> omega
  · simp [calcEndDate, clampEndDay, h]
    split_ifs <;> simp_all <;> omega

/-- C8: a stored period-end value makes a row eligible at a reference date iff
it parses to a date on or after that date; empty or missing values never
parse, hence are never eligible. -/
theorem claim_C8_eligibility :
    (∀ (headers row : List String) (asOf : Date) (idx : Nat) (v : String),
        findCol headers "дата_окончания" = some idx →
        row.get? idx = some v →
        (rowIsPaid headers row asOf = true ↔
          ∃ d, parseSheetDate (.s v) = some d ∧ Date.le asOf d = true)) ∧
    parseSheetDate (.s "") = none ∧ parseSheetDate .nullv = none := by
  refine ⟨?_, rfl, rfl⟩
  intro headers row asOf idx v hcol hget
  obtain ⟨hlt, -⟩ := List.get?_eq_some.mp hget
  have hgetD : row.getD idx "" = v := getD_of_get? "" hget
  have hnle : ¬ row.length ≤ idx := by omega
  simp only [rowIsPaid, hcol, hnle, if_false, hgetD]
  cases hp : parseSheetDate (.s v) with
  | none => simp
  | some pu =>
      simp only [Option.some.injEq]
      constructor
      · intro hle
        exact ⟨pu, rfl, hle⟩
      · rintro ⟨d, rfl, hle⟩
        exact hle

/-- Witness for C8 at a concrete header, row and date. -/
theorem claim_C8_eligibility_witness :
    rowIsPaid ["дата_окончания"] ["2025-03-20"] ⟨2025, 3, 20⟩ = true :=
  (claim_C8_eligibility.1 ["дата_окончания"] ["2025-03-20"] ⟨2025, 3, 20⟩ 0 "2025-03-20"
    (by decide) (by decide)).mpr ⟨⟨2025, 3, 20⟩, by decide, by decide⟩

/-- Unfolding of the eligibility test: true iff the period-end column is
found and the cell there (blank when the row is short) parses to a date on
or after today. -/
theorem rowIsPaid_iff {headers rowVals : List String} {today : Date} :
    rowIsPaid headers rowVals today = true ↔
      ∃ ip d, findCol headers "дата_окончания" = some ip ∧
        parseSheetDate (.s (rowVals.getD ip "")) = some d ∧ Date.le today d = true := by
  unfold rowIsPaid
  split
  · rename_i hip
    simp [hip]
  · rename_i ip hip
    by_cases hlen : rowVals.length ≤ ip
    · rw [if_pos hlen]
      constructor
      · intro h
        exact Bool.noConfusion h
      · rintro ⟨ip2, d, heq, hp, -⟩
        rw [hip] at heq
        obtain rfl : ip = ip2 := by injection heq
        rw [getD_of_len_le "" hlen] at hp
        have hnone : parseSheetDate (.s "") = none := rfl
        rw [hnone] at hp
        cases hp
    · rw [if_neg hlen]
      split
      · rename_i hp
        constructor
        · intro h
          exact Bool.noConfusion h
        · rintro ⟨ip2, d, heq, hp2, -⟩
          rw [hip] at heq
          obtain rfl : ip = ip2 := by injection heq
          rw [hp] at hp2
          cases hp2
      · rename_i pu hp
        constructor
        · intro h
          exact ⟨ip, pu, hip, hp, h⟩
        · rintro ⟨ip2, d, heq, hp2, hle⟩
          rw [hip] at heq
          obtain rfl : ip = ip2 := by injection heq
          rw [hp] at hp2
          obtain rfl : pu = d := by injection hp2
          exact hle

/-- C5: on an access request the Gatekeeper approves iff some ledger row of
the identity (all its rows are consulted) has a period end parsing to a date
on or after today; an identity with no rows is declined, and a failed
lookup declines (fail-closed).  The identity text is assumed to occur only
in user_id cells of data rows, which is what ties matched cells to the
identity's rows. -/
theorem claim_C5_gatekeeper :
    ∀ (sheetRows : List (List String)) (uid : Nat) (today : Date) (iu : Nat),
      findCol (sheetRows.headD []) "user_id" = some iu →
      (∀ rc ∈ findallCells sheetRows (toString uid), 2 ≤ rc.1 ∧ rc.2 = iu + 1) →
      ((onJoinRequest (.ok sheetRows) uid today = true ↔
          ∃ r ∈ uidRowsOf sheetRows iu (toString uid), ∃ ip d,
            findCol (sheetRows.headD []) "дата_окончания" = some ip ∧
            parseSheetDate (.s (r.getD ip "")) = some d ∧ Date.le today d = true) ∧
        (uidRowsOf sheetRows iu (toString uid) = [] →
          onJoinRequest (.ok sheetRows) uid today = false) ∧
        onJoinRequest (.error ()) uid today = false) := by
  intro rows uid today iu hiu hclean
  have hmain : onJoinRequest (.ok rows) uid today = true ↔
      ∃ r ∈ uidRowsOf rows iu (toString uid), ∃ ip d,
        findCol (rows.headD []) "дата_окончания" = some ip ∧
        parseSheetDate (.s (r.getD ip "")) = some d ∧ Date.le today d = true := by
    unfold onJoinRequest gatekeeperFromSheet
    rw [List.any_eq_true]
    constructor
    · rintro ⟨rc, hrc, hpaid⟩
      obtain ⟨h2, hcq⟩ := hclean rc hrc
      obtain ⟨hr1, hc1, row, hrow, hcell⟩ := mem_findallCells.mp hrc
      have hgetDrow : rows.getD (rc.1 - 1) [] = row := getD_of_get? [] hrow
      rw [hgetDrow] at hpaid
      have hdrop : (rows.drop 1).get? (rc.1 - 2) = some row := by
        rw [get?_drop_one]
        have he : rc.1 - 2 + 1 = rc.1 - 1 := by omega
        rw [he]
        exact hrow
      have hmemrow : row ∈ uidRowsOf rows iu (toString uid) := by
        unfold uidRowsOf
        refine List.mem_filter.mpr ⟨List.get?_mem hdrop, ?_⟩
        have he : rc.2 - 1 = iu := by omega
        rw [← he]
        simpa using hcell
      obtain ⟨ip, d, hip, hp, hle⟩ := rowIsPaid_iff.mp hpaid
      exact ⟨row, hmemrow, ip, d, hip, hp, hle⟩
    · rintro ⟨r, hr, ip, d, hip, hp, hle⟩
      obtain ⟨hrmem, hpred⟩ := List.mem_filter.mp hr
      obtain ⟨k, hk⟩ := List.mem_iff_get?.mp hrmem
      have hget : rows.get? (k + 1) = some r := by
        rw [← get?_drop_one]
        exact hk
      have hcellq : r.get? iu = some (toString uid) := by simpa using hpred
      have hcellmem : (k + 2, iu + 1) ∈ findallCells rows (toString uid) := by
        rw [mem_findallCells]
        refine ⟨by omega, by omega, r, ?_, ?_⟩
        · have he : k + 2 - 1 = k + 1 := by omega
          rw [he]
          exact hget
        · have he : iu + 1 - 1 = iu := by omega
          rw [he]
          exact hcellq
      refine ⟨(k + 2, iu + 1), hcellmem, ?_⟩
      have hgetD : rows.getD (k + 2 - 1) [] = r := by
        have he : k + 2 - 1 = k + 1 := by omega
        rw [he]
        exact getD_of_get? [] hget
      show rowIsPaid (rows.headD []) (rows.getD (k + 2 - 1) []) today = true
      rw [hgetD]
      exact rowIsPaid_iff.mpr ⟨ip, d, hip, hp, hle⟩
  refine ⟨hmain, ?_, rfl⟩
  intro h0
  by_contra hne
  have : onJoinRequest (.ok rows) uid today = true := by
    cases hdec : onJoinRequest (.ok rows) uid today
    · exact absurd hdec hne
    · rfl
  obtain ⟨r, hr, -⟩ := hmain.mp this
  rw [h0] at hr
  cases hr

/-- Witness for C5 at a concrete sheet with one paid row. -/
theorem claim_C5_gatekeeper_witness :
    onJoinRequest (.ok [WANTED_HEADERS_RU,
      ["7", "@a", "2025-01-15", "2025-02-20", "no", "active", "", "", ""]]) 7
      ⟨2025, 2, 20⟩ = true :=
  ((claim_C5_gatekeeper [WANTED_HEADERS_RU,
      ["7", "@a", "2025-01-15", "2025-02-20", "no", "active", "", "", ""]] 7
      ⟨2025, 2, 20⟩ 0 (by decide) (by decide)).1).mpr
    ⟨["7", "@a", "2025-01-15", "2025-02-20", "no", "active", "", "", ""],
      by decide, 3, ⟨2025, 2, 20⟩, by decide, by decide, by decide⟩

theorem pyEnum_map_snd {α : Type} : ∀ (l : List α) (n : Nat),
    (pyEnum n l).map (fun p => p.2) = l := by
  intro l
  induction l with
  | nil => intro n; rfl
  | cons x xs ih => intro n; simp [pyEnum, ih]

theorem overwriteRowAt_append_last {l : List (List String)} {v vals : List String} :
    overwriteRowAt (l ++ [v]) (l.length + 1) vals = l ++ [vals ++ v.drop vals.length] := by
  unfold overwriteRowAt
  rw [pyEnum_append, List.map_append]
  congr 1
  · have hcong : ∀ p ∈ pyEnum 1 l,
        (if p.1 == l.length + 1 then vals ++ p.2.drop vals.length else p.2) = p.2 := by
      rintro ⟨i, r⟩ hp
      obtain ⟨h1, h2⟩ := (mem_pyEnum _ _ _ _).mp hp
      have hlt : i - 1 < l.length := (List.get?_eq_some.mp h2).1
      have : (i == l.length + 1) = false := by
        simp only [beq_eq_false_iff_ne, ne_eq]
        omega
      simp [this]
    rw [List.map_congr_left hcong, pyEnum_map_snd]
  · rw [Nat.add_comm 1 l.length]
    simp [pyEnum]

/-- C3: the ledger write of the upsert is idempotent per day: starting from
a ledger whose header is the deployed one and which nowhere mentions the
identity text, the first call appends exactly one row, the second call
overwrites that row in place with the same values, and after both calls the
identity has exactly one row whose period-end cell is the computed end
date. -/
theorem claim_C3_upsert_idempotent :
    ∀ (sheetRows : List (List String)) (u : Nat) (ru fn : String) (today : Date) (endDay : Int),
      sheetRows.headD [] = WANTED_HEADERS_RU →
      (∀ r ∈ sheetRows, ∀ c ∈ r, c ≠ toString u) →
      (approveUpsert sheetRows u ru fn today endDay =
          sheetRows ++ [upsertValues WANTED_HEADERS_RU u ru fn today endDay] ∧
        approveUpsert (approveUpsert sheetRows u ru fn today endDay) u ru fn today endDay =
          approveUpsert sheetRows u ru fn today endDay ∧
        uidRowsOf (approveUpsert (approveUpsert sheetRows u ru fn today endDay) u ru fn
            today endDay) 0 (toString u) =
          [upsertValues WANTED_HEADERS_RU u ru fn today endDay] ∧
        (upsertValues WANTED_HEADERS_RU u ru fn today endDay).get? 3 =
          some (dateIso (calcEndDate endDay today))) := by
  intro rows u ru fn today e hh hclean
  obtain ⟨rest, rfl⟩ : ∃ rest, rows = WANTED_HEADERS_RU :: rest := by
    cases rows with
    | nil => exact absurd hh (by decide)
    | cons h t =>
        refine ⟨t, ?_⟩
        have hht : h = WANTED_HEADERS_RU := hh
        rw [hht]
  have hens : ensureHeadersRu (WANTED_HEADERS_RU :: rest) = WANTED_HEADERS_RU :: rest := rfl
  have hfa1 : findallCells (WANTED_HEADERS_RU :: rest) (toString u) = [] :=
    findallCells_eq_nil hclean
  set vals := upsertValues WANTED_HEADERS_RU u ru fn today e with hvals
  obtain ⟨vtl, hvtl⟩ : ∃ tl, vals = toString u :: tl := ⟨_, rfl⟩
  have hvals0 : vals.get? 0 = some (toString u) := by rw [hvtl]; rfl
  have hs1 : approveUpsert (WANTED_HEADERS_RU :: rest) u ru fn today e =
      (WANTED_HEADERS_RU :: rest) ++ [vals] := by
    unfold approveUpsert
    rw [hens]
    simp only [hfa1, List.head?_nil]
    rfl
  have hens2 : ensureHeadersRu ((WANTED_HEADERS_RU :: rest) ++ [vals]) =
      (WANTED_HEADERS_RU :: rest) ++ [vals] := rfl
  have hfa2 : (findallCells ((WANTED_HEADERS_RU :: rest) ++ [vals]) (toString u)).head? =
      some (rest.length + 2, 1) := by
    unfold findallCells
    rw [pyEnum_append, List.flatMap_append]
    have h1 := hfa1
    unfold findallCells at h1
    rw [h1, List.nil_append]
    rw [hvtl]
    simp only [List.length_cons, pyEnum, List.flatMap_cons, List.flatMap_nil,
      List.filterMap_cons, beq_self_eq_true, if_true, List.append_nil]
    have he : 1 + (rest.length + 1) = rest.length + 2 := by omega
    rw [he]
    rfl
  have hover : overwriteRowAt ((WANTED_HEADERS_RU :: rest) ++ [vals]) (rest.length + 2) vals =
      (WANTED_HEADERS_RU :: rest) ++ [vals] := by
    have h := @overwriteRowAt_append_last (WANTED_HEADERS_RU :: rest) vals vals
    simp only [List.length_cons] at h
    rw [h, List.drop_length, List.append_nil]
  have hs2 : approveUpsert ((WANTED_HEADERS_RU :: rest) ++ [vals]) u ru fn today e =
      (WANTED_HEADERS_RU :: rest) ++ [vals] := by
    unfold approveUpsert
    rw [hens2]
    simp only [hfa2]
    exact hover
  have hrows : uidRowsOf ((WANTED_HEADERS_RU :: rest) ++ [vals]) 0 (toString u) = [vals] := by
    unfold uidRowsOf
    simp only [List.cons_append, List.drop_succ_cons, List.drop_zero]
    rw [List.filter_append]
    have h1 : rest.filter (fun r => r.get? 0 == some (toString u)) = [] := by
      rw [List.filter_eq_nil_iff]
      intro r hr
      cases hg : r.get? 0 with
      | none => simp [hg]
      | some c =>
          have hne : c ≠ toString u :=
            hclean r (List.mem_cons_of_mem _ hr) c (List.get?_mem hg)
          simp [hg, hne]
    have hb : (vals.get? 0 == some (toString u)) = true := by
      rw [hvals0]
      exact beq_self_eq_true _
    rw [h1, List.nil_append, List.filter_cons, if_pos hb]
    rfl
  have hv3 : vals.get? 3 = some (dateIso (calcEndDate e today)) := rfl
  refine ⟨hs1, ?_, ?_, hv3⟩
  · rw [hs1]
    exact hs2
  · rw [hs1, hs2]
    exact hrows

/-- Witness for C3 at a concrete fresh ledger. -/
theorem claim_C3_upsert_idempotent_witness :
    approveUpsert [WANTED_HEADERS_RU] 7 "alice" "Alice A" ⟨2025, 1, 15⟩ 20 =
        [WANTED_HEADERS_RU] ++
          [upsertValues WANTED_HEADERS_RU 7 "alice" "Alice A" ⟨2025, 1, 15⟩ 20] ∧
      approveUpsert (approveUpsert [WANTED_HEADERS_RU] 7 "alice" "Alice A" ⟨2025, 1, 15⟩ 20) 7
          "alice" "Alice A" ⟨2025, 1, 15⟩ 20 =
        approveUpsert [WANTED_HEADERS_RU] 7 "alice" "Alice A" ⟨2025, 1, 15⟩ 20 ∧
      uidRowsOf (approveUpsert (approveUpsert [WANTED_HEADERS_RU] 7 "alice" "Alice A"
            ⟨2025, 1, 15⟩ 20) 7 "alice" "Alice A" ⟨2025, 1, 15⟩ 20) 0 (toString 7) =
        [upsertValues WANTED_HEADERS_RU 7 "alice" "Alice A" ⟨2025, 1, 15⟩ 20] ∧
      (upsertValues WANTED_HEADERS_RU 7 "alice" "Alice A" ⟨2025, 1, 15⟩ 20).get? 3 =
        some (dateIso (calcEndDate 20 ⟨2025, 1, 15⟩)) :=
  claim_C3_upsert_idempotent [WANTED_HEADERS_RU] 7 "alice" "Alice A" ⟨2025, 1, 15⟩ 20
    (by decide) (by decide)

/-- C1 (code bug): the removal pass compares the maximum period end with
today.replace(day=19), not with the first day of the current month stated
by the claim and by the source docstrings.  With today = 2025-03-25 an
identity whose only end date is 2025-03-10 is kicked by the code although
its maximum is on or after the documented cutoff 2025-03-01; the spec
scenario (u=2 kicked, u=1 keeps its authoritative row, its stale row 3 and
u=2's row 4 deleted) evaluates the same way under both cutoffs. -/
theorem claim_C1_cutoff_evaluation :
    monthStartCode ⟨2025, 3, 25⟩ = ⟨2025, 3, 19⟩ ∧
    monthStartDocumented ⟨2025, 3, 25⟩ = ⟨2025, 3, 1⟩ ∧
    usersToKick [recMid] (monthStartCode ⟨2025, 3, 25⟩) = [1] ∧
    isKickCandidate [recMid] (monthStartDocumented ⟨2025, 3, 25⟩) 1 = false ∧
    Date.le (monthStartDocumented ⟨2025, 3, 25⟩) ⟨2025, 3, 10⟩ = true ∧
    usersToKick [recU1a, recU1b, recU2] (monthStartCode ⟨2025, 3, 25⟩) = [2] ∧
    cleanRowsToDelete [recU1a, recU1b, recU2] (monthStartCode ⟨2025, 3, 25⟩) = [3, 4] ∧
    usersToKick [recU1a, recU1b, recU2] (monthStartDocumented ⟨2025, 3, 25⟩) = [2] ∧
    cleanRowsToDelete [recU1a, recU1b, recU2] (monthStartDocumented ⟨2025, 3, 25⟩) = [3, 4] := by
  decide

/-- Counterexample for C4: on two rows of one identity with equal period
ends, the dedupe pass deletes the earlier row (the tie-break by row index),
while the removal pass deletes nothing — the two passes do not follow the
same rule. -/
theorem claim_C4_counterexample :
    purgeToDelete hdrUP [tieRow, tieRow] = [2] ∧
    cleanRowsToDelete [tieRec, tieRec] ⟨2025, 3, 19⟩ = [] ∧
    ¬ ([] : List Nat) = [2] := by
  decide

/-- Counterexample for C6: a data row without a parseable identity is
written back as a blank, not as the "no" the claim requires for every row
of a non-present identity. -/
theorem claim_C6_counterexample :
    auditValues [[""]] 0 (fun _ => none) = [[""]] ∧
    findCol ["user_id"] "user_id" = some 0 ∧
    ¬ ([[""]] : List (List String)) = [["no"]] := by
  decide

/-- Counterexample for C10: a removal candidate keeps its rows whose period
end does not parse; here identity 5 is kicked, yet its row with end text
"oops" survives the pass, so the identity does not end with zero rows. -/
theorem claim_C10_counterexample :
    usersToKick [recK1, recK2] ⟨2025, 3, 19⟩ = [5] ∧
    cleanRowsToDelete [recK1, recK2] ⟨2025, 3, 19⟩ = [2] ∧
    applyDeletesRec [recK1, recK2] (cleanRowsToDelete [recK1, recK2] ⟨2025, 3, 19⟩) =
      [recK2] ∧
    recUid recK2 = some 5 ∧ recEnd recK2 = none := by
  decide

/-! ### Order lemmas for the sort keys -/

theorem pairLexLe_total (d1 d2 : Date) (n1 n2 : Nat) :
    (Date.lt d1 d2 || (d1 == d2 && decide (n1 ≤ n2))) = true ∨
      (Date.lt d2 d1 || (d2 == d1 && decide (n2 ≤ n1))) = true := by
  cases d1; cases d2
  simp only [Date.lt, Bool.or_eq_true, Bool.and_eq_true, decide_eq_true_eq, beq_iff_eq,
    Date.mk.injEq]
  omega

theorem pairLexLe_trans {d1 d2 d3 : Date} {n1 n2 n3 : Nat}
    (h1 : (Date.lt d1 d2 || (d1 == d2 && decide (n1 ≤ n2))) = true)
    (h2 : (Date.lt d2 d3 || (d2 == d3 && decide (n2 ≤ n3))) = true) :
    (Date.lt d1 d3 || (d1 == d3 && decide (n1 ≤ n3))) = true := by
  cases d1; cases d2; cases d3
  simp only [Date.lt, Bool.or_eq_true, Bool.and_eq_true, decide_eq_true_eq, beq_iff_eq,
    Date.mk.injEq] at h1 h2 ⊢
  omega

theorem pairLexLe_ne_lt {d1 d2 : Date} {n1 n2 : Nat}
    (h : (Date.lt d1 d2 || (d1 == d2 && decide (n1 ≤ n2))) = true) (hne : n1 ≠ n2) :
    (Date.lt d1 d2 || (d1 == d2 && decide (n1 < n2))) = true := by
  cases d1; cases d2
  simp only [Date.lt, Bool.or_eq_true, Bool.and_eq_true, decide_eq_true_eq, beq_iff_eq,
    Date.mk.injEq] at h ⊢
  omega

theorem puKeyLe_total (a b : Nat × Option Date) :
    puKeyLe a b = true ∨ puKeyLe b a = true :=
  pairLexLe_total (a.2.getD dateMin) (b.2.getD dateMin) a.1 b.1

theorem puKeyLe_trans {a b c : Nat × Option Date}
    (h1 : puKeyLe a b = true) (h2 : puKeyLe b c = true) : puKeyLe a c = true :=
  pairLexLe_trans h1 h2

theorem puKeyLt_of_le_ne {a b : Nat × Option Date}
    (h : puKeyLe a b = true) (hne : a.1 ≠ b.1) : puKeyLt a b = true :=
  pairLexLe_ne_lt h hne

instance : IsTotal (Nat × Option Date) PuGeP :=
  ⟨fun a b => (puKeyLe_total b a).elim Or.inl Or.inr⟩

instance : IsTrans (Nat × Option Date) PuGeP :=
  ⟨fun _ _ _ hab hbc => puKeyLe_trans hbc hab⟩

theorem cleanItemLe_total (a b : Nat × Date) :
    cleanItemLe a b = true ∨ cleanItemLe b a = true :=
  pairLexLe_total a.2 b.2 a.1 b.1

theorem cleanItemLe_trans {a b c : Nat × Date}
    (h1 : cleanItemLe a b = true) (h2 : cleanItemLe b c = true) : cleanItemLe a c = true :=
  pairLexLe_trans h1 h2

instance : IsTotal (Nat × Date) CleanLeP := ⟨fun a b => cleanItemLe_total a b⟩

instance : IsTrans (Nat × Date) CleanLeP :=
  ⟨fun _ _ _ hab hbc => cleanItemLe_trans hab hbc⟩

theorem Date.lt_self_false (a : Date) : Date.lt a a = false := by
  simp [Date.lt]

/-! ### Indexed filterMap lemmas -/

theorem filterMap_pyEnum_fst_lt {α β : Type} (f : Nat × α → Option (Nat × β))
    (hf : ∀ i a x, f (i, a) = some x → x.1 = i) :
    ∀ (l : List α) (n : Nat),
      ((pyEnum n l).filterMap f).Pairwise (fun p q => p.1 < q.1) := by
  intro l
  induction l with
  | nil => intro n; simp [pyEnum]
  | cons x xs ih =>
      intro n
      simp only [pyEnum, List.filterMap_cons]
      cases hfx : f (n, x) with
      | none => exact ih (n + 1)
      | some y =>
          refine List.Pairwise.cons ?_ (ih (n + 1))
          intro q hq
          obtain ⟨⟨i, a⟩, hmem, heq⟩ := List.mem_filterMap.mp hq
          have hqi : q.1 = i := hf i a q heq
          have hyn : y.1 = n := hf n x y hfx
          have hge : n + 1 ≤ i := pyEnum_fst_ge _ _ _ hmem
          omega

theorem pairwiseFstLt_functional {β : Type} :
    ∀ {l : List (Nat × β)}, l.Pairwise (fun p q => p.1 < q.1) →
      ∀ {i : Nat} {b1 b2 : β}, (i, b1) ∈ l → (i, b2) ∈ l → b1 = b2 := by
  intro l
  induction l with
  | nil => intro _ i b1 b2 h1 _; cases h1
  | cons p rest ih =>
      intro hpw i b1 b2 h1 h2
      obtain ⟨hhead, htail⟩ := List.pairwise_cons.mp hpw
      rcases List.mem_cons.mp h1 with heq1 | hm1 <;>
        rcases List.mem_cons.mp h2 with heq2 | hm2
      · have h12 : (i, b1) = (i, b2) := heq1.trans heq2.symm
        exact ((Prod.mk.injEq _ _ _ _).mp h12).2
      · exfalso
        have := hhead _ hm2
        rw [← heq1] at this
        simp at this
      · exfalso
        have := hhead _ hm1
        rw [← heq2] at this
        simp at this
      · exact ih htail hm1 hm2

theorem pairwiseFstLt_nodup {β : Type} {l : List (Nat × β)}
    (h : l.Pairwise (fun p q => p.1 < q.1)) : l.Nodup :=
  h.imp (fun hlt => by
    intro heq
    rw [heq] at hlt
    omega)

theorem pairwiseFstLt_map_nodup {β : Type} {l : List (Nat × β)}
    (h : l.Pairwise (fun p q => p.1 < q.1)) : (l.map (fun p => p.1)).Nodup := by
  rw [List.nodup_map_iff_inj_on (pairwiseFstLt_nodup h)]
  intro x hx y hy hxy
  cases x; cases y
  obtain rfl : _ = _ := hxy
  rename_i b1 b2
  rw [pairwiseFstLt_functional h hx hy]

/-! ### Membership characterizations for the pass groupings -/

theorem mem_cleanItems {records : List Rec} {u : Int} {i : Nat} {d : Date} :
    (i, d) ∈ cleanItems records u ↔
      2 ≤ i ∧ ∃ row, records.get? (i - 2) = some row ∧
        recUid row = some u ∧ recEnd row = some d := by
  unfold cleanItems
  rw [List.mem_filterMap]
  constructor
  · rintro ⟨⟨j, row⟩, hmem, heq⟩
    obtain ⟨h2, hget⟩ := (mem_pyEnum _ _ _ _).mp hmem
    cases hu : recUid row with
    | none => simp [hu] at heq
    | some v =>
        cases hd : recEnd row with
        | none => simp [hu, hd] at heq
        | some dd =>
            simp only [hu, hd] at heq
            by_cases hv : v == u
            · rw [if_pos hv] at heq
              obtain ⟨rfl, rfl⟩ : j = i ∧ dd = d := by
                constructor <;> [exact congrArg Prod.fst (Option.some.inj heq);
                  exact congrArg Prod.snd (Option.some.inj heq)]
              have hvu : v = u := by simpa using hv
              exact ⟨h2, row, hget, by rw [hu, hvu], hd⟩
            · rw [if_neg hv] at heq
              cases heq
  · rintro ⟨h2, row, hget, hu, hd⟩
    refine ⟨(i, row), (mem_pyEnum _ _ _ _).mpr ⟨h2, hget⟩, ?_⟩
    simp [hu, hd]

theorem mem_purgeItems {data : List (List String)} {iu ip : Nat} {u : Int} {i : Nat}
    {pu : Option Date} :
    (i, pu) ∈ purgeItems data iu ip u ↔
      2 ≤ i ∧ ∃ r, data.get? (i - 2) = some r ∧
        purgeRowUid? iu r = some u ∧ pu = rowPu ip r := by
  unfold purgeItems
  rw [List.mem_filterMap]
  constructor
  · rintro ⟨⟨j, r⟩, hmem, heq⟩
    obtain ⟨h2, hget⟩ := (mem_pyEnum _ _ _ _).mp hmem
    cases hu : purgeRowUid? iu r with
    | none => simp [hu] at heq
    | some v =>
        simp only [hu] at heq
        by_cases hv : v == u
        · rw [if_pos hv] at heq
          obtain ⟨rfl, hpu⟩ : j = i ∧ rowPu ip r = pu := by
            constructor <;> [exact congrArg Prod.fst (Option.some.inj heq);
              exact congrArg Prod.snd (Option.some.inj heq)]
          have hvu : v = u := by simpa using hv
          exact ⟨h2, r, hget, by rw [hu, hvu], hpu.symm⟩
        · rw [if_neg hv] at heq
          cases heq
  · rintro ⟨h2, r, hget, hu, hpu⟩
    refine ⟨(i, r), (mem_pyEnum _ _ _ _).mpr ⟨h2, hget⟩, ?_⟩
    simp [hu, hpu]

theorem mem_auditRowsOf {data : List (List String)} {iu : Nat} {u : Int} {i : Nat} :
    i ∈ auditRowsOf data iu u ↔
      2 ≤ i ∧ ∃ r, data.get? (i - 2) = some r ∧ auditUid? iu r = some u := by
  unfold auditRowsOf
  rw [List.mem_filterMap]
  constructor
  · rintro ⟨⟨j, r⟩, hmem, heq⟩
    obtain ⟨h2, hget⟩ := (mem_pyEnum _ _ _ _).mp hmem
    by_cases hv : auditUid? iu r == some u
    · rw [if_pos hv] at heq
      obtain rfl : j = i := Option.some.inj heq
      exact ⟨h2, r, hget, by simpa using hv⟩
    · rw [if_neg hv] at heq
      cases heq
  · rintro ⟨h2, r, hget, hu⟩
    refine ⟨(i, r), (mem_pyEnum _ _ _ _).mpr ⟨h2, hget⟩, ?_⟩
    simp [hu]

theorem mem_cleanUids {records : List Rec} {u : Int} :
    u ∈ cleanUids records ↔
      ∃ row ∈ records, recUid row = some u ∧ ∃ d, recEnd row = some d := by
  unfold cleanUids
  rw [mem_firstOccDedup, List.mem_filterMap]
  constructor
  · rintro ⟨row, hrow, heq⟩
    cases hu : recUid row with
    | none => simp [hu] at heq
    | some v =>
        cases hd : recEnd row with
        | none => simp [hu, hd] at heq
        | some dd =>
            simp only [hu, hd] at heq
            obtain rfl : v = u := Option.some.inj heq
            exact ⟨row, hrow, hu, dd, hd⟩
  · rintro ⟨row, hrow, hu, d, hd⟩
    refine ⟨row, hrow, ?_⟩
    simp [hu, hd]

theorem mem_purgeUids {data : List (List String)} {iu : Nat} {u : Int} :
    u ∈ purgeUids data iu ↔ ∃ r ∈ data, purgeRowUid? iu r = some u := by
  unfold purgeUids
  rw [mem_firstOccDedup, List.mem_filterMap]

theorem mem_auditUids {data : List (List String)} {iu : Nat} {u : Int} :
    u ∈ auditUids data iu ↔ ∃ r ∈ data, auditUid? iu r = some u := by
  unfold auditUids
  rw [mem_firstOccDedup, List.mem_filterMap]

theorem mem_applyDeletesRec {records : List Rec} {dels : List Nat} {row : Rec} :
    row ∈ applyDeletesRec records dels ↔
      ∃ i, 2 ≤ i ∧ records.get? (i - 2) = some row ∧ dels.contains i = false := by
  unfold applyDeletesRec
  rw [List.mem_filterMap]
  constructor
  · rintro ⟨⟨j, r⟩, hmem, heq⟩
    obtain ⟨h2, hget⟩ := (mem_pyEnum _ _ _ _).mp hmem
    by_cases hc : dels.contains j
    · rw [if_pos hc] at heq
      cases heq
    · rw [if_neg hc] at heq
      obtain rfl : r = row := Option.some.inj heq
      exact ⟨j, h2, hget, by simpa using hc⟩
  · rintro ⟨i, h2, hget, hc⟩
    refine ⟨(i, row), (mem_pyEnum _ _ _ _).mpr ⟨h2, hget⟩, ?_⟩
    rw [hc]
    rfl

theorem contains_iff_mem {α : Type} [BEq α] [LawfulBEq α] {l : List α} {a : α} :
    l.contains a = true ↔ a ∈ l := List.elem_iff

theorem mem_sortCleanItems {its : List (Nat × Date)} {x : Nat × Date} :
    x ∈ sortCleanItems its ↔ x ∈ its :=
  (List.perm_insertionSort _ its).mem_iff

theorem cleanItems_pairwise (records : List Rec) (u : Int) :
    (cleanItems records u).Pairwise (fun p q => p.1 < q.1) := by
  unfold cleanItems
  refine filterMap_pyEnum_fst_lt _ ?_ records 2
  rintro i a x heq
  cases hu : recUid a with
  | none => simp [hu] at heq
  | some v =>
      cases hd : recEnd a with
      | none => simp [hu, hd] at heq
      | some dd =>
          simp only [hu, hd] at heq
          by_cases hv : v == u
          · rw [if_pos hv] at heq
            exact (congrArg Prod.fst (Option.some.inj heq)).symm
          · rw [if_neg hv] at heq
            cases heq

theorem isKickCandidate_eq {records : List Rec} {ms : Date} {u : Int} {m : Date}
    (hmax : maxEnd? ((sortCleanItems (cleanItems records u)).map (fun p => p.2)) = some m) :
    isKickCandidate records ms u = Date.lt m ms := by
  unfold isKickCandidate
  simp only [hmax]

theorem cleanDeleteFor_subset {records : List Rec} {ms : Date} {v : Int} {i : Nat}
    (h : i ∈ cleanDeleteFor records ms v) : ∃ d, (i, d) ∈ cleanItems records v := by
  simp only [cleanDeleteFor] at h
  split at h
  · cases h
  · rename_i m hmax
    split at h
    · obtain ⟨p, hp, hpi⟩ := List.mem_map.mp h
      refine ⟨p.2, ?_⟩
      have he : (i, p.2) = p := by rw [← hpi]
      rw [he]
      exact mem_sortCleanItems.mp hp
    · obtain ⟨p, hp, hpi⟩ := List.mem_map.mp h
      refine ⟨p.2, ?_⟩
      have he : (i, p.2) = p := by rw [← hpi]
      rw [he]
      exact mem_sortCleanItems.mp (List.mem_of_mem_filter hp)

theorem item_uid_unique {records : List Rec} {u v : Int} {i : Nat} {d d' : Date}
    (h1 : (i, d) ∈ cleanItems records u) (h2 : (i, d') ∈ cleanItems records v) :
    u = v ∧ d = d' := by
  obtain ⟨-, row1, hget1, hu1, hd1⟩ := mem_cleanItems.mp h1
  obtain ⟨-, row2, hget2, hu2, hd2⟩ := mem_cleanItems.mp h2
  rw [hget1] at hget2
  obtain rfl : row1 = row2 := Option.some.inj hget2
  rw [hu1] at hu2
  rw [hd1] at hd2
  exact ⟨Option.some.inj hu2, Option.some.inj hd2⟩

theorem item_in_dels {records : List Rec} {ms : Date} {u : Int} {i : Nat} {d : Date}
    (hk : isKickCandidate records ms u = true) (hi : (i, d) ∈ cleanItems records u) :
    i ∈ cleanRowsToDelete records ms := by
  obtain ⟨h2, row, hget, hu, hd⟩ := mem_cleanItems.mp hi
  have huid : u ∈ cleanUids records :=
    mem_cleanUids.mpr ⟨row, List.get?_mem hget, hu, d, hd⟩
  refine List.mem_flatMap.mpr ⟨u, huid, ?_⟩
  unfold isKickCandidate at hk
  split at hk
  · cases hk
  · rename_i m hmax
    simp only [cleanDeleteFor, hmax]
    rw [if_pos hk]
    exact List.mem_map.mpr ⟨(i, d), mem_sortCleanItems.mpr hi, rfl⟩

/-- C10 (amended): in the removal pass a kicked identity loses exactly its
rows with a parseable period end — including the authoritative one — so
after a fully successful pass it can retain only rows whose period end does
not parse; an identity that is not a removal candidate keeps a row carrying
its maximum period end. -/
theorem claim_C10_amended :
    ∀ (records : List Rec) (ms : Date),
      (∀ u, isKickCandidate records ms u = true →
        (∀ i d, (i, d) ∈ cleanItems records u → i ∈ cleanRowsToDelete records ms) ∧
        (∀ row ∈ applyDeletesRec records (cleanRowsToDelete records ms),
          recUid row = some u → recEnd row = none)) ∧
      (∀ u m,
        maxEnd? ((sortCleanItems (cleanItems records u)).map (fun p => p.2)) = some m →
        isKickCandidate records ms u = false →
        ∃ row ∈ applyDeletesRec records (cleanRowsToDelete records ms),
          recUid row = some u ∧ recEnd row = some m) := by
  intro records ms
  constructor
  · intro u hk
    refine ⟨fun i d hi => item_in_dels hk hi, ?_⟩
    intro row hrow hu
    cases hd : recEnd row with
    | none => rfl
    | some d =>
        exfalso
        obtain ⟨i, h2, hget, hc⟩ := mem_applyDeletesRec.mp hrow
        have hitem : (i, d) ∈ cleanItems records u :=
          mem_cleanItems.mpr ⟨h2, row, hget, hu, hd⟩
        have hdel := item_in_dels hk hitem
        rw [contains_iff_mem.mpr hdel] at hc
        cases hc
  · intro u m hmax hkf
    obtain ⟨p, hp, hps⟩ := List.mem_map.mp (maxEnd?_mem hmax)
    have hitem : (p.1, m) ∈ cleanItems records u := by
      have he : ((p.1, m) : Nat × Date) = p := by rw [← hps]
      rw [he]
      exact mem_sortCleanItems.mp hp
    have hnotdel : p.1 ∉ cleanRowsToDelete records ms := by
      intro hdel
      obtain ⟨v, hv, hvd⟩ := List.mem_flatMap.mp hdel
      obtain ⟨d', hd'⟩ := cleanDeleteFor_subset hvd
      obtain ⟨hvu, -⟩ := item_uid_unique hd' hitem
      rw [hvu] at hvd
      simp only [cleanDeleteFor, hmax] at hvd
      have hlt_false : Date.lt m ms = false := by
        rw [isKickCandidate_eq hmax] at hkf
        exact hkf
      rw [if_neg (by rw [hlt_false]; exact Bool.false_ne_true)] at hvd
      obtain ⟨q, hq, hqi⟩ := List.mem_map.mp hvd
      have hqlt : Date.lt q.2 m = true := by
        have h := List.of_mem_filter hq
        simpa using h
      have hqitem : (q.1, q.2) ∈ cleanItems records u :=
        mem_sortCleanItems.mp (List.mem_of_mem_filter hq)
      have hqm : q.2 = m := by
        have := pairwiseFstLt_functional (cleanItems_pairwise records u)
          (by rw [hqi] at hqitem; exact hqitem) hitem
        exact this
      rw [hqm] at hqlt
      rw [Date.lt_self_false m] at hqlt
      cases hqlt
    obtain ⟨h2, row, hget, hu, hd⟩ := mem_cleanItems.mp hitem
    refine ⟨row, mem_applyDeletesRec.mpr ⟨p.1, h2, hget, ?_⟩, hu, hd⟩
    cases hcon : (cleanRowsToDelete records ms).contains p.1
    · rfl
    · exact absurd (contains_iff_mem.mp hcon) hnotdel

/-- Witness for C10 at the concrete kicked identity with an undated row. -/
theorem claim_C10_amended_witness :
    2 ∈ cleanRowsToDelete [recK1, recK2] ⟨2025, 3, 19⟩ ∧
    (∀ row ∈ applyDeletesRec [recK1, recK2] (cleanRowsToDelete [recK1, recK2] ⟨2025, 3, 19⟩),
      recUid row = some 5 → recEnd row = none) := by
  have h := (claim_C10_amended [recK1, recK2] ⟨2025, 3, 19⟩).1 5 (by decide)
  exact ⟨h.1 2 ⟨2024, 1, 1⟩ (by decide), h.2⟩

theorem purgeItems_pairwise (data : List (List String)) (iu ip : Nat) (u : Int) :
    (purgeItems data iu ip u).Pairwise (fun p q => p.1 < q.1) := by
  unfold purgeItems
  refine filterMap_pyEnum_fst_lt _ ?_ data 2
  rintro i a x heq
  cases hu : purgeRowUid? iu a with
  | none => simp [hu] at heq
  | some v =>
      simp only [hu] at heq
      by_cases hv : v == u
      · rw [if_pos hv] at heq
        exact (congrArg Prod.fst (Option.some.inj heq)).symm
      · rw [if_neg hv] at heq
        cases heq

theorem mem_purgeSorted {its : List (Nat × Option Date)} {x : Nat × Option Date} :
    x ∈ purgeSorted its ↔ x ∈ its :=
  (List.perm_insertionSort _ its).mem_iff

/-- C4 (amended): the max-by (parsed period end, row index) rule — with an
unparseable or empty period end as the minimum date — governs the dedicated
dedupe pass exactly: the authoritative row strictly dominates every other
row of the identity and exactly the others are marked.  The removal pass
follows a different rule for identities it keeps: only rows with a parsed
end strictly below the identity maximum are deleted, so date ties all
survive and undated rows are skipped. -/
theorem claim_C4_amended :
    (∀ (data : List (List String)) (iu ip : Nat) (u : Int),
        2 ≤ (purgeItems data iu ip u).length →
        ∃ best ∈ purgeItems data iu ip u,
          (∀ x ∈ purgeItems data iu ip u, x ≠ best → puKeyLt x best = true) ∧
          (∀ i, i ∈ purgeDeleteFor data iu ip u ↔
            ∃ pu, (i, pu) ∈ purgeItems data iu ip u ∧ (i, pu) ≠ best)) ∧
    (∀ (records : List Rec) (ms : Date) (u : Int) (m : Date),
        maxEnd? ((sortCleanItems (cleanItems records u)).map (fun p => p.2)) = some m →
        Date.lt m ms = false →
        ∀ i, i ∈ cleanDeleteFor records ms u ↔
          ∃ d, (i, d) ∈ cleanItems records u ∧ Date.lt d m = true) := by
  constructor
  · intro data iu ip u hlen
    have hpw := purgeItems_pairwise data iu ip u
    have hperm := List.perm_insertionSort PuGeP (purgeItems data iu ip u)
    have hsorted : (purgeSorted (purgeItems data iu ip u)).Pairwise PuGeP :=
      List.sorted_insertionSort PuGeP (purgeItems data iu ip u)
    obtain ⟨b, t2, hbt⟩ :
        ∃ b t2, purgeSorted (purgeItems data iu ip u) = b :: t2 := by
      cases hs : purgeSorted (purgeItems data iu ip u) with
      | nil =>
          exfalso
          have hl := hperm.length_eq
          rw [show purgeSorted (purgeItems data iu ip u) =
            (purgeItems data iu ip u).insertionSort PuGeP from rfl] at hs
          rw [hs] at hl
          simp at hl
          omega
      | cons b t2 => exact ⟨b, t2, rfl⟩
    have hbmem : b ∈ purgeItems data iu ip u := by
      refine hperm.mem_iff.mp ?_
      rw [show (purgeItems data iu ip u).insertionSort PuGeP =
        purgeSorted (purgeItems data iu ip u) from rfl, hbt]
      exact List.mem_cons_self _ _
    refine ⟨b, hbmem, ?_, ?_⟩
    · intro x hx hxb
      have hxs : x ∈ purgeSorted (purgeItems data iu ip u) := mem_purgeSorted.mpr hx
      rw [hbt] at hxs
      rcases List.mem_cons.mp hxs with rfl | hxt
      · exact absurd rfl hxb
      · have hgep : PuGeP b x := by
          have hpc := List.pairwise_cons.mp (hbt ▸ hsorted)
          exact hpc.1 x hxt
        have hfst : x.1 ≠ b.1 := by
          intro he
          obtain ⟨x1, x2⟩ := x
          obtain ⟨b1, b2⟩ := b
          simp only at he
          subst he
          have := pairwiseFstLt_functional hpw hx hbmem
          subst this
          exact hxb rfl
        exact puKeyLt_of_le_ne hgep hfst
    · intro i
      have hnodup : (purgeSorted (purgeItems data iu ip u)).Nodup := by
        refine hperm.nodup_iff.mpr (pairwiseFstLt_nodup hpw)
      rw [hbt] at hnodup
      have hbnot : b ∉ t2 := (List.nodup_cons.mp hnodup).1
      have hdel : purgeDeleteFor data iu ip u = t2.map (fun x => x.1) := by
        simp only [purgeDeleteFor]
        rw [if_neg (by omega), hbt]
        rfl
      rw [hdel]
      constructor
      · intro him
        obtain ⟨q, hq, hqi⟩ := List.mem_map.mp him
        refine ⟨q.2, ?_, ?_⟩
        · have hqs : q ∈ purgeSorted (purgeItems data iu ip u) := by
            rw [hbt]
            exact List.mem_cons_of_mem _ hq
          have hqit := mem_purgeSorted.mp hqs
          have he : ((i, q.2) : Nat × Option Date) = q := by rw [← hqi]
          rw [he]
          exact hqit
        · intro he
          have : q = b := by
            have he2 : ((i, q.2) : Nat × Option Date) = q := by rw [← hqi]
            rw [he2] at he
            exact he
          rw [this] at hq
          exact hbnot hq
      · rintro ⟨pu, hpu, hne⟩
        have hmem : (i, pu) ∈ purgeSorted (purgeItems data iu ip u) :=
          mem_purgeSorted.mpr hpu
        rw [hbt] at hmem
        rcases List.mem_cons.mp hmem with he | ht
        · exact absurd he hne
        · exact List.mem_map.mpr ⟨(i, pu), ht, rfl⟩
  · intro records ms u m hmax hltf i
    simp only [cleanDeleteFor, hmax]
    rw [if_neg (by rw [hltf]; exact Bool.false_ne_true)]
    constructor
    · intro him
      obtain ⟨q, hq, hqi⟩ := List.mem_map.mp him
      have hqlt : Date.lt q.2 m = true := by simpa using List.of_mem_filter hq
      have hqit : q ∈ cleanItems records u :=
        mem_sortCleanItems.mp (List.mem_of_mem_filter hq)
      refine ⟨q.2, ?_, hqlt⟩
      have he : ((i, q.2) : Nat × Date) = q := by rw [← hqi]
      rw [he]
      exact hqit
    · rintro ⟨d, hd, hlt⟩
      refine List.mem_map.mpr ⟨(i, d), ?_, rfl⟩
      exact List.mem_filter.mpr ⟨mem_sortCleanItems.mpr hd, by simpa using hlt⟩

/-- Witness for C4 at the tied duplicate rows and a two-row identity. -/
theorem claim_C4_amended_witness :
    (∃ best ∈ purgeItems [tieRow, tieRow] 0 1 1,
        (∀ x ∈ purgeItems [tieRow, tieRow] 0 1 1, x ≠ best → puKeyLt x best = true) ∧
        (∀ i, i ∈ purgeDeleteFor [tieRow, tieRow] 0 1 1 ↔
          ∃ pu, (i, pu) ∈ purgeItems [tieRow, tieRow] 0 1 1 ∧ (i, pu) ≠ best)) ∧
    (∀ i, i ∈ cleanDeleteFor [recU1a, recU1b] ⟨2025, 3, 19⟩ 1 ↔
      ∃ d, (i, d) ∈ cleanItems [recU1a, recU1b] 1 ∧ Date.lt d ⟨2025, 3, 20⟩ = true) :=
  ⟨claim_C4_amended.1 [tieRow, tieRow] 0 1 1 (by decide),
   claim_C4_amended.2 [recU1a, recU1b] ⟨2025, 3, 19⟩ 1 ⟨2025, 3, 20⟩ (by decide) (by decide)⟩

theorem foldUpdate_at (c : String) : ∀ (rows : List Nat) (m : Nat → Option String) (x : Nat),
    (rows.foldl (fun m2 rn => fun y => if y == rn then some c else m2 y) m) x =
      if rows.contains x then some c else m x := by
  intro rows
  induction rows with
  | nil => intro m x; simp
  | cons r rest ih =>
      intro m x
      simp only [List.foldl_cons]
      rw [ih]
      simp only [List.contains_cons]
      by_cases h1 : rest.contains x <;> by_cases h2 : (x == r) = true <;>
        simp [h1, h2]

theorem statusMap_at {data : List (List String)} {iu : Nat} {memb : Int → Option String}
    {k : Nat} {r : List String} (hget : data.get? k = some r) :
    statusMapFn data iu memb (k + 2) =
      match auditUid? iu r with
      | some u => some (if inChat memb u then "yes" else "no")
      | none => none := by
  have hrows : ∀ u, ((auditRowsOf data iu u).contains (k + 2) = true) ↔
      auditUid? iu r = some u := by
    intro u
    rw [contains_iff_mem, mem_auditRowsOf]
    constructor
    · rintro ⟨h2, r2, hget2, hu2⟩
      rw [show k + 2 - 2 = k by omega, hget] at hget2
      obtain rfl : r = r2 := Option.some.inj hget2
      exact hu2
    · intro hu
      exact ⟨by omega, r, by rw [show k + 2 - 2 = k by omega]; exact hget, hu⟩
  unfold statusMapFn
  cases hu0 : auditUid? iu r with
  | none =>
      have key : ∀ (us : List Int) (m : Nat → Option String), m (k + 2) = none →
          (us.foldl (fun m u =>
            (auditRowsOf data iu u).foldl
              (fun m2 rn => fun y =>
                if y == rn then some (if inChat memb u then "yes" else "no") else m2 y)
              m) m) (k + 2) = none := by
        intro us
        induction us with
        | nil => intro m hm; exact hm
        | cons u rest ih =>
            intro m hm
            simp only [List.foldl_cons]
            refine ih _ ?_
            rw [foldUpdate_at]
            have hcf : (auditRowsOf data iu u).contains (k + 2) = false := by
              cases hcc : (auditRowsOf data iu u).contains (k + 2)
              · rfl
              · rw [(hrows u).mp hcc] at hu0
                cases hu0
            rw [hcf]
            simpa using hm
      exact key _ _ rfl
  | some u0 =>
      have key : ∀ (us : List Int) (m : Nat → Option String),
          (us.foldl (fun m u =>
            (auditRowsOf data iu u).foldl
              (fun m2 rn => fun y =>
                if y == rn then some (if inChat memb u then "yes" else "no") else m2 y)
              m) m) (k + 2) =
            if u0 ∈ us then some (if inChat memb u0 then "yes" else "no") else m (k + 2) := by
        intro us
        induction us with
        | nil => intro m; simp
        | cons u rest ih =>
            intro m
            simp only [List.foldl_cons]
            rw [ih]
            rw [foldUpdate_at]
            by_cases hmem : u0 ∈ rest
            · simp [hmem]
            · by_cases huu : u = u0
              · subst huu
                have hct : (k + 2) ∈ auditRowsOf data iu u :=
                  contains_iff_mem.mp ((hrows u).mpr hu0)
                simp [hmem, hct]
              · have hcf : (k + 2) ∉ auditRowsOf data iu u := by
                  intro hin
                  rw [(hrows u).mp (contains_iff_mem.mpr hin)] at hu0
                  exact absurd (Option.some.inj hu0) huu
                have hne : ¬ u0 = u := fun h => huu h.symm
                simp [hmem, hcf, hne]
      rw [key]
      have hin : u0 ∈ auditUids data iu :=
        mem_auditUids.mpr ⟨r, List.get?_mem hget, hu0⟩
      rw [if_pos hin]

/-- C6 (amended): the audit pass writes the in_channel column back in one
batched update over the contiguous range of all data rows, with one value
per row: "yes" for rows of identities found in the live channel, "no" for
rows of identities that are absent or whose lookup failed, and a blank for
rows without a parseable identity. -/
theorem claim_C6_amended :
    ∀ (headers : List String) (data : List (List String)) (iu : Nat)
      (memb : Int → Option String),
      findCol headers "user_id" = some iu →
      (auditRange data = (2, 1 + data.length) ∧
        (auditValues data iu memb).length = data.length ∧
        ∀ k r, data.get? k = some r →
          (auditValues data iu memb).get? k =
            some [match auditUid? iu r with
                  | some u => if inChat memb u then "yes" else "no"
                  | none => ""]) := by
  intro headers data iu memb hiu
  refine ⟨rfl, by simp [auditValues], ?_⟩
  intro k r hget
  have hk : k < data.length := (List.get?_eq_some.mp hget).1
  unfold auditValues
  rw [List.get?_map, List.get?_range hk]
  rw [show Option.map (fun k => [(statusMapFn data iu memb (k + 2)).getD ""]) (some k) =
    some [(statusMapFn data iu memb (k + 2)).getD ""] from rfl]
  rw [statusMap_at hget]
  cases hu : auditUid? iu r with
  | none => simp
  | some u => simp

/-- Witness for C6 at a concrete snapshot with a present identity, a blank
identity cell and an absent identity. -/
theorem claim_C6_amended_witness :
    (auditValues [["5"], [""], ["6"]] 0
        (fun u => if u == 5 then some "member" else some "left")).get? 0 =
      some ["yes"] ∧
    (auditValues [["5"], [""], ["6"]] 0
        (fun u => if u == 5 then some "member" else some "left")).get? 1 =
      some [""] ∧
    (auditValues [["5"], [""], ["6"]] 0
        (fun u => if u == 5 then some "member" else some "left")).get? 2 =
      some ["no"] :=
  ⟨(claim_C6_amended ["user_id"] [["5"], [""], ["6"]] 0
      (fun u => if u == 5 then some "member" else some "left") (by decide)).2.2 0 ["5"]
      (by decide),
   (claim_C6_amended ["user_id"] [["5"], [""], ["6"]] 0
      (fun u => if u == 5 then some "member" else some "left") (by decide)).2.2 1 [""]
      (by decide),
   (claim_C6_amended ["user_id"] [["5"], [""], ["6"]] 0
      (fun u => if u == 5 then some "member" else some "left") (by decide)).2.2 2 ["6"]
      (by decide)⟩

theorem contains_append_bool {α : Type} [BEq α] (l1 l2 : List α) (a : α) :
    (l1 ++ l2).contains a = (l1.contains a || l2.contains a) := by
  induction l1 with
  | nil => simp
  | cons x xs ih => simp [List.contains_cons, ih, Bool.or_assoc]

theorem broadcastTargets_fold (iu : Nat) : ∀ (data : List (List String)) (acc : List Int),
    data.foldl
      (fun acc r =>
        match broadcastRowUid? iu r with
        | none => acc
        | some uid => if acc.contains uid then acc else acc ++ [uid]) acc =
    (data.filterMap (broadcastRowUid? iu)).foldl
      (fun acc uid => if acc.contains uid then acc else acc ++ [uid]) acc := by
  intro data
  induction data with
  | nil => intro acc; rfl
  | cons r rest ih =>
      intro acc
      simp only [List.foldl_cons, List.filterMap_cons]
      cases hfr : broadcastRowUid? iu r with
      | none => exact ih acc
      | some uid => simp only [List.foldl_cons]; exact ih _

theorem foldSeen_firstOccDedup : ∀ (l : List Int) (acc : List Int),
    l.foldl (fun acc uid => if acc.contains uid then acc else acc ++ [uid]) acc =
      acc ++ firstOccDedup (l.filter (fun y => !acc.contains y)) := by
  intro l
  induction l with
  | nil =>
      intro acc
      show acc = acc ++ firstOccDedup []
      rw [show firstOccDedup [] = [] from rfl, List.append_nil]
  | cons x xs ih =>
      intro acc
      simp only [List.foldl_cons, List.filter_cons]
      by_cases hc : acc.contains x = true
      · rw [if_pos hc]
        rw [if_neg (by rw [hc]; exact Bool.noConfusion)]
        exact ih acc
      · have hcf : acc.contains x = false := by
          cases h : acc.contains x
          · rfl
          · exact absurd h hc
        rw [if_neg hc, if_pos (by rw [hcf]; rfl)]
        rw [ih (acc ++ [x]), firstOccDedup_cons]
        rw [List.append_assoc, List.singleton_append]
        have hset : xs.filter (fun y => !(acc ++ [x]).contains y) =
            (xs.filter (fun y => !acc.contains y)).filter (fun y => y != x) := by
          rw [List.filter_filter]
          refine (List.filter_congr ?_)
          intro y hy
          rw [contains_append_bool]
          simp only [List.contains_cons, List.contains_nil, Bool.or_false]
          by_cases h1 : (y == x) = true <;> by_cases h2 : acc.contains y = true <;>
            simp [h1, h2, bne]
        rw [hset]

theorem msgEvents_btraceAux (deliver : Int → Bool) : ∀ (ts : List Int) (idx : Nat),
    msgEvents (btraceAux deliver idx ts) = ts.map (fun u => (u, deliver u)) := by
  intro ts
  induction ts with
  | nil => intro idx; rfl
  | cons u rest ih =>
      intro idx
      simp only [btraceAux]
      by_cases hp : ((idx + 1) % 12 == 0) = true
      · rw [if_pos hp]
        simp only [msgEvents, List.singleton_append, List.filterMap_cons, List.map_cons]
        have := ih (idx + 1)
        simp only [msgEvents] at this
        rw [this]
      · rw [if_neg hp]
        simp only [msgEvents, List.nil_append, List.filterMap_cons, List.map_cons]
        have := ih (idx + 1)
        simp only [msgEvents] at this
        rw [this]

theorem broadcastCounts_fold (deliver : Int → Bool) : ∀ (ts : List Int) (a b : Nat),
    ts.foldl (fun acc u => if deliver u then (acc.1 + 1, acc.2) else (acc.1, acc.2 + 1))
      (a, b) =
      (a + (ts.filter (fun u => deliver u)).length,
        b + (ts.filter (fun u => !deliver u)).length) := by
  intro ts
  induction ts with
  | nil => intro a b; simp
  | cons u rest ih =>
      intro a b
      simp only [List.foldl_cons, List.filter_cons]
      by_cases hd : deliver u = true
      · rw [if_pos hd, if_pos (by rw [hd]), if_neg (by rw [hd]; exact Bool.noConfusion)]
        rw [ih, List.length_cons]
        rw [show a + 1 + (rest.filter (fun u => deliver u)).length =
          a + ((rest.filter (fun u => deliver u)).length + 1) by omega]
      · have hdf : deliver u = false := by
          cases h : deliver u
          · rfl
          · exact absurd h hd
        rw [if_neg hd, if_neg (by rw [hdf]; exact Bool.noConfusion),
          if_pos (by rw [hdf]; rfl)]
        rw [ih, List.length_cons]
        rw [show b + 1 + (rest.filter (fun u => !deliver u)).length =
          b + ((rest.filter (fun u => !deliver u)).length + 1) by omega]

theorem pauseMsgCountsAux_btrace (deliver : Int → Bool) : ∀ (ts : List Int) (idx kk : Nat),
    pauseMsgCountsAux kk (btraceAux deliver idx ts) =
      (List.range ts.length).filterMap
        (fun j => if (idx + j + 1) % 12 == 0 then some (kk + j + 1) else none) := by
  intro ts
  induction ts with
  | nil => intro idx kk; rfl
  | cons u rest ih =>
      intro idx kk
      have hcomp :
          ((fun j => if ((idx + j + 1) % 12 == 0) = true then some (kk + j + 1) else none) ∘
            Nat.succ) =
          (fun j => if ((idx + 1 + j + 1) % 12 == 0) = true then some (kk + 1 + j + 1)
            else none) := by
        funext j
        simp only [Function.comp]
        have h1 : idx + Nat.succ j + 1 = idx + 1 + j + 1 := by omega
        have h2 : kk + Nat.succ j + 1 = kk + 1 + j + 1 := by omega
        rw [h1, h2]
      simp only [btraceAux, List.length_cons, List.range_succ_eq_map]
      by_cases hp : ((idx + 1) % 12 == 0) = true
      · rw [if_pos hp]
        simp only [List.singleton_append, List.cons_append, List.nil_append,
          List.append_eq, pauseMsgCountsAux]
        rw [ih (idx + 1) (kk + 1)]
        rw [@List.filterMap_cons_some Nat Nat
          (fun j => if ((idx + j + 1) % 12 == 0) = true then some (kk + j + 1) else none)
          0 (List.map Nat.succ (List.range rest.length)) (kk + 1) (if_pos hp),
          List.filterMap_map, hcomp]
      · rw [if_neg hp]
        simp only [List.cons_append, List.nil_append, List.append_eq, pauseMsgCountsAux]
        rw [ih (idx + 1) (kk + 1)]
        rw [@List.filterMap_cons_none Nat Nat
          (fun j => if ((idx + j + 1) % 12 == 0) = true then some (kk + j + 1) else none)
          0 (List.map Nat.succ (List.range rest.length)) (if_neg hp),
          List.filterMap_map, hcomp]

theorem range_filterMap_multiples : ∀ (n : Nat),
    (List.range n).filterMap
      (fun j => if (j + 1) % 12 == 0 then some (j + 1) else none) =
      (List.range (n / 12)).map (fun k => 12 * (k + 1)) := by
  intro n
  induction n with
  | zero => rfl
  | succ n ih =>
      rw [List.range_succ, List.filterMap_append, ih]
      by_cases h : ((n + 1) % 12 == 0) = true
      · have h12 : (n + 1) % 12 = 0 := by simpa using h
        have hdiv : (n + 1) / 12 = n / 12 + 1 := by omega
        have hval : n + 1 = 12 * (n / 12 + 1) := by omega
        have hfm : List.filterMap
            (fun j => if ((j + 1) % 12 == 0) = true then some (j + 1) else none) [n] =
            [n + 1] := by
          rw [@List.filterMap_cons_some Nat Nat
            (fun j => if ((j + 1) % 12 == 0) = true then some (j + 1) else none)
            n [] (n + 1) (if_pos h)]
          rfl
        rw [hfm, hdiv, List.range_succ, List.map_append]
        simp only [List.map_cons, List.map_nil]
        rw [← hval]
      · have hdiv : (n + 1) / 12 = n / 12 := by
          have h12 : (n + 1) % 12 ≠ 0 := fun hz => absurd (by simpa using hz) h
          omega
        have hfm : List.filterMap
            (fun j => if ((j + 1) % 12 == 0) = true then some (j + 1) else none) [n] =
            [] := by
          rw [@List.filterMap_cons_none Nat Nat
            (fun j => if ((j + 1) % 12 == 0) = true then some (j + 1) else none)
            n [] (if_neg h)]
          rfl
        rw [hfm, hdiv, List.append_nil]

/-- C9: a broadcast sends at most one message per distinct identity, in the
order of first occurrence in the snapshot; every target is attempted even
when earlier deliveries fail, sent and failed tallies partition the
targets, and the loop pauses exactly after every twelfth delivery
attempt. -/
theorem claim_C9_broadcast :
    ∀ (headers : List String) (data : List (List String)) (iu : Nat) (deliver : Int → Bool),
      findCol headers "user_id" = some iu →
      (broadcastTargets data iu = firstOccDedup (broadcastRawUids data iu) ∧
        (broadcastTargets data iu).Nodup ∧
        msgEvents (btrace deliver (broadcastTargets data iu)) =
          (broadcastTargets data iu).map (fun u => (u, deliver u)) ∧
        broadcastCounts deliver (broadcastTargets data iu) =
          (((broadcastTargets data iu).filter (fun u => deliver u)).length,
            ((broadcastTargets data iu).filter (fun u => !deliver u)).length) ∧
        pauseMsgCounts (btrace deliver (broadcastTargets data iu)) =
          (List.range ((broadcastTargets data iu).length / 12)).map
            (fun k => 12 * (k + 1))) := by
  intro headers data iu deliver hiu
  have hmain : broadcastTargets data iu = firstOccDedup (broadcastRawUids data iu) := by
    unfold broadcastTargets
    rw [broadcastTargets_fold, foldSeen_firstOccDedup, List.nil_append]
    unfold broadcastRawUids
    congr 1
    apply List.filter_eq_self.mpr
    intro a _
    rfl
  refine ⟨hmain, ?_, msgEvents_btraceAux deliver _ 0, ?_, ?_⟩
  · rw [hmain]
    exact nodup_firstOccDedup _
  · unfold broadcastCounts
    have h := broadcastCounts_fold deliver (broadcastTargets data iu) 0 0
    simpa using h
  · unfold pauseMsgCounts btrace
    rw [pauseMsgCountsAux_btrace]
    have hz : (fun j => if (0 + j + 1) % 12 == 0 then some (0 + j + 1) else none) =
        (fun j => if (j + 1) % 12 == 0 then some (j + 1) else none) := by
      funext j
      rw [show 0 + j + 1 = j + 1 by omega]
    rw [hz, range_filterMap_multiples]

/-- Witness for C9 at a concrete snapshot with a repeated identity and a
failing recipient. -/
theorem claim_C9_broadcast_witness :
    broadcastTargets [["5"], ["6"], ["5"], ["x"], ["7"]] 0 =
        firstOccDedup (broadcastRawUids [["5"], ["6"], ["5"], ["x"], ["7"]] 0) ∧
      (broadcastTargets [["5"], ["6"], ["5"], ["x"], ["7"]] 0).Nodup ∧
      msgEvents (btrace (fun u => u != 6) (broadcastTargets [["5"], ["6"], ["5"], ["x"], ["7"]] 0)) =
        (broadcastTargets [["5"], ["6"], ["5"], ["x"], ["7"]] 0).map
          (fun u => (u, (fun u => u != 6) u)) ∧
      broadcastCounts (fun u => u != 6) (broadcastTargets [["5"], ["6"], ["5"], ["x"], ["7"]] 0) =
        (((broadcastTargets [["5"], ["6"], ["5"], ["x"], ["7"]] 0).filter
            (fun u => (fun u => u != 6) u)).length,
          ((broadcastTargets [["5"], ["6"], ["5"], ["x"], ["7"]] 0).filter
            (fun u => !(fun u => u != 6) u)).length) ∧
      pauseMsgCounts (btrace (fun u => u != 6) (broadcastTargets [["5"], ["6"], ["5"], ["x"], ["7"]] 0)) =
        (List.range ((broadcastTargets [["5"], ["6"], ["5"], ["x"], ["7"]] 0).length / 12)).map
          (fun k => 12 * (k + 1)) :=
  claim_C9_broadcast ["user_id"] [["5"], ["6"], ["5"], ["x"], ["7"]] 0 (fun u => u != 6)
    (by decide)

/-! ### Idempotence machinery for the dedupe pass -/

theorem pyEnum_pairwise {α : Type} : ∀ (l : List α) (n : Nat),
    (pyEnum n l).Pairwise (fun p q => p.1 < q.1) := by
  intro l
  induction l with
  | nil => intro n; simp [pyEnum]
  | cons x xs ih =>
      intro n
      simp only [pyEnum]
      refine List.Pairwise.cons ?_ (ih (n + 1))
      intro q hq
      have := pyEnum_fst_ge xs (n + 1) q hq
      simp only
      omega

theorem filter_applyDeletesData (dels : List Nat) (q : List String → Bool) :
    ∀ (l : List (List String)) (n : Nat),
    ((pyEnum n l).filterMap
        (fun p => if dels.contains p.1 then none else some p.2)).filter q =
      ((pyEnum n l).filter (fun p => !dels.contains p.1 && q p.2)).map (fun p => p.2) := by
  intro l
  induction l with
  | nil => intro n; rfl
  | cons x xs ih =>
      intro n
      simp only [pyEnum, List.filterMap_cons, List.filter_cons]
      by_cases hc : dels.contains n = true
      · rw [if_pos hc]
        have hg : (!dels.contains n && q x) = false := by rw [hc]; rfl
        rw [hg]
        simp only [Bool.false_eq_true, if_false]
        exact ih (n + 1)
      · rw [if_neg hc]
        have hcf : dels.contains n = false := by
          cases h : dels.contains n
          · rfl
          · exact absurd h hc
        have hg : (!dels.contains n && q x) = q x := by rw [hcf]; rfl
        rw [hg, List.filter_cons]
        by_cases hq : q x = true
        · rw [if_pos hq, if_pos hq, List.map_cons, ih (n + 1)]
        · rw [if_neg hq, if_neg hq, ih (n + 1)]

theorem purgeItems_length_aux (iu ip : Nat) (u : Int) :
    ∀ (l : List (List String)) (n : Nat),
    ((pyEnum n l).filterMap (fun p =>
        match purgeRowUid? iu p.2 with
        | some v => if v == u then some (p.1, rowPu ip p.2) else none
        | none => none)).length =
      (l.filter (fun r => purgeRowUid? iu r == some u)).length := by
  intro l
  induction l with
  | nil => intro n; rfl
  | cons x xs ih =>
      intro n
      simp only [pyEnum, List.filterMap_cons, List.filter_cons]
      cases hu : purgeRowUid? iu x with
      | none => exact ih (n + 1)
      | some v =>
          simp only []
          rw [show (some v == some u) = (v == u) from rfl]
          by_cases hv : (v == u) = true
          · rw [if_pos hv, if_pos hv]
            simp only [List.length_cons]
            rw [ih (n + 1)]
          · rw [if_neg hv, if_neg hv]
            exact ih (n + 1)

theorem purgeItems_length (data : List (List String)) (iu ip : Nat) (u : Int) :
    (purgeItems data iu ip u).length = (uidDataRows data iu u).length := by
  unfold purgeItems uidDataRows
  exact purgeItems_length_aux iu ip u data 2

theorem mem_purgeToDelete {headers : List String} {data : List (List String)} {iu ip : Nat}
    (h1 : findCol headers "user_id" = some iu)
    (h2 : findCol headers "дата_окончания" = some ip) {i : Nat} :
    i ∈ purgeToDelete headers data ↔
      ∃ v ∈ purgeUids data iu, i ∈ purgeDeleteFor data iu ip v := by
  simp only [purgeToDelete, h1, h2]
  rw [(List.perm_insertionSort _ _).mem_iff, List.mem_dedup, List.mem_flatMap]

theorem purge_del_iff {data : List (List String)} {iu ip : Nat} {u : Int}
    {b : Nat × Option Date} {t2 : List (Nat × Option Date)}
    (hbt : purgeSorted (purgeItems data iu ip u) = b :: t2) :
    ∀ i, i ∈ purgeDeleteFor data iu ip u ↔
      ∃ pu, (i, pu) ∈ purgeItems data iu ip u ∧ (i, pu) ≠ b := by
  have hpw := purgeItems_pairwise data iu ip u
  have hperm := List.perm_insertionSort PuGeP (purgeItems data iu ip u)
  have hnodup : (purgeSorted (purgeItems data iu ip u)).Nodup :=
    hperm.nodup_iff.mpr (pairwiseFstLt_nodup hpw)
  have hlen : (purgeItems data iu ip u).length = t2.length + 1 := by
    have hp := hperm.length_eq
    rw [show (purgeItems data iu ip u).insertionSort PuGeP =
      purgeSorted (purgeItems data iu ip u) from rfl, hbt] at hp
    rw [List.length_cons] at hp
    omega
  cases t2 with
  | nil =>
      intro i
      have hdel : purgeDeleteFor data iu ip u = [] := by
        simp only [purgeDeleteFor]
        rw [if_pos (by rw [hlen]; simp)]
      rw [hdel]
      simp only [List.not_mem_nil, false_iff]
      rintro ⟨pu, hpu, hne⟩
      have hms : (i, pu) ∈ purgeSorted (purgeItems data iu ip u) := mem_purgeSorted.mpr hpu
      rw [hbt] at hms
      rcases List.mem_cons.mp hms with he | hmm
      · exact hne he
      · cases hmm
  | cons y t' =>
      intro i
      have hdel : purgeDeleteFor data iu ip u = (y :: t').map (fun x => x.1) := by
        simp only [purgeDeleteFor]
        rw [if_neg (by rw [hlen, List.length_cons]; omega), hbt]
        rfl
      rw [hdel]
      have hbnot : b ∉ y :: t' := by
        rw [hbt] at hnodup
        exact (List.nodup_cons.mp hnodup).1
      constructor
      · intro him
        obtain ⟨x2, hx2, hxi⟩ := List.mem_map.mp him
        refine ⟨x2.2, ?_, ?_⟩
        · have hxs : x2 ∈ purgeSorted (purgeItems data iu ip u) := by
            rw [hbt]
            exact List.mem_cons_of_mem _ hx2
          have hxit := mem_purgeSorted.mp hxs
          have he : ((i, x2.2) : Nat × Option Date) = x2 := by rw [← hxi]
          rw [he]
          exact hxit
        · intro he
          have hx2b : x2 = b := by
            have he2 : ((i, x2.2) : Nat × Option Date) = x2 := by rw [← hxi]
            rw [he2] at he
            exact he
          rw [hx2b] at hx2
          exact hbnot hx2
      · rintro ⟨pu, hpu, hne⟩
        have hms : (i, pu) ∈ purgeSorted (purgeItems data iu ip u) := mem_purgeSorted.mpr hpu
        rw [hbt] at hms
        rcases List.mem_cons.mp hms with he | ht
        · exact absurd he hne
        · exact List.mem_map.mpr ⟨(i, pu), ht, rfl⟩

theorem row_del_iff {headers : List String} {data : List (List String)} {iu ip : Nat}
    {u : Int} {b : Nat × Option Date} {t2 : List (Nat × Option Date)}
    (h1 : findCol headers "user_id" = some iu)
    (h2 : findCol headers "дата_окончания" = some ip)
    (hbt : purgeSorted (purgeItems data iu ip u) = b :: t2)
    {i : Nat} {r : List String} (h2i : 2 ≤ i)
    (hget : data.get? (i - 2) = some r)
    (huid : purgeRowUid? iu r = some u) :
    i ∈ purgeToDelete headers data ↔ (i, rowPu ip r) ≠ b := by
  rw [mem_purgeToDelete h1 h2]
  constructor
  · rintro ⟨v, hv, hdelm⟩
    simp only [purgeDeleteFor] at hdelm
    by_cases hle : (purgeItems data iu ip v).length ≤ 1
    · rw [if_pos hle] at hdelm
      cases hdelm
    · rw [if_neg hle] at hdelm
      obtain ⟨x, hx, hxi⟩ := List.mem_map.mp hdelm
      have hxs : x ∈ purgeSorted (purgeItems data iu ip v) := List.mem_of_mem_drop hx
      have hxit : x ∈ purgeItems data iu ip v := mem_purgeSorted.mp hxs
      obtain ⟨h2x, r', hget', huid', hpu'⟩ := mem_purgeItems.mp
        (show ((x.1, x.2) : Nat × Option Date) ∈ purgeItems data iu ip v from hxit)
      rw [hxi] at hget'
      have hrr : r' = r := Option.some.inj (hget'.symm.trans hget)
      rw [hrr] at huid'
      have hvu : u = v := Option.some.inj (huid.symm.trans huid')
      subst hvu
      rw [hbt] at hx
      have hxt2 : x ∈ t2 := by simpa using hx
      have hpw := purgeItems_pairwise data iu ip u
      have hperm := List.perm_insertionSort PuGeP (purgeItems data iu ip u)
      have hnodup : (purgeSorted (purgeItems data iu ip u)).Nodup :=
        hperm.nodup_iff.mpr (pairwiseFstLt_nodup hpw)
      rw [hbt] at hnodup
      have hbnot : b ∉ t2 := (List.nodup_cons.mp hnodup).1
      have hxeq : x = (i, rowPu ip r) := by
        have he : ((x.1, x.2) : Nat × Option Date) = (i, rowPu ip r) := by
          rw [hxi, hpu', hrr]
        exact he
      intro heqb
      rw [hxeq, heqb] at hxt2
      exact hbnot hxt2
  · intro hne
    exact ⟨u, mem_purgeUids.mpr ⟨r, List.get?_mem hget, huid⟩,
      (purge_del_iff hbt i).mpr
        ⟨rowPu ip r, mem_purgeItems.mpr ⟨h2i, r, hget, huid, rfl⟩, hne⟩⟩

theorem authRow_mem {headers : List String} {data : List (List String)} {iu ip : Nat}
    (h1 : findCol headers "user_id" = some iu)
    (h2 : findCol headers "дата_окончания" = some ip)
    {u : Int} {r : List String}
    (ha : authRow? headers data u = some r) : r ∈ uidDataRows data iu u := by
  simp only [authRow?, h1, h2] at ha
  cases hs : purgeSorted (purgeItems data iu ip u) with
  | nil =>
      rw [hs] at ha
      have ha2 : (none : Option (List String)) = some r := ha
      cases ha2
  | cons b t2 =>
      rw [hs, List.head?_cons] at ha
      have ha2 : data.get? (b.1 - 2) = some r := ha
      obtain ⟨hb2, r', hget', huid', hbpu⟩ := mem_purgeItems.mp
        (show ((b.1, b.2) : Nat × Option Date) ∈ purgeItems data iu ip u from
          mem_purgeSorted.mp (by rw [hs]; exact List.mem_cons_self _ _))
      have hrr : r = r' := Option.some.inj (ha2.symm.trans hget')
      rw [hrr]
      unfold uidDataRows
      refine List.mem_filter.mpr ⟨List.get?_mem hget', ?_⟩
      rw [huid']
      simp

theorem authRow_of_row {headers : List String} {data : List (List String)} {iu ip : Nat}
    (h1 : findCol headers "user_id" = some iu)
    (h2 : findCol headers "дата_окончания" = some ip)
    {u : Int} {r : List String}
    (hr : r ∈ uidDataRows data iu u) : ∃ r2, authRow? headers data u = some r2 := by
  obtain ⟨hrd, hru⟩ := List.mem_filter.mp
    (show r ∈ data.filter (fun r => purgeRowUid? iu r == some u) from hr)
  have hruid : purgeRowUid? iu r = some u := eq_of_beq hru
  obtain ⟨j, hj⟩ := List.get?_of_mem hrd
  have hit : ((j + 2, rowPu ip r) : Nat × Option Date) ∈ purgeItems data iu ip u := by
    refine mem_purgeItems.mpr ⟨by omega, r, ?_, hruid, rfl⟩
    rw [show j + 2 - 2 = j by omega]
    exact hj
  cases hs : purgeSorted (purgeItems data iu ip u) with
  | nil =>
      exfalso
      have hm := mem_purgeSorted.mpr hit
      rw [hs] at hm
      cases hm
  | cons b t2 =>
      obtain ⟨hb2, r', hget', huid', hbpu⟩ := mem_purgeItems.mp
        (show ((b.1, b.2) : Nat × Option Date) ∈ purgeItems data iu ip u from
          mem_purgeSorted.mp (by rw [hs]; exact List.mem_cons_self _ _))
      refine ⟨r', ?_⟩
      simp only [authRow?, h1, h2]
      rw [hs, List.head?_cons]
      exact hget'

theorem uidRows_after_purge {headers : List String} {data : List (List String)} {iu ip : Nat}
    (h1 : findCol headers "user_id" = some iu)
    (h2 : findCol headers "дата_окончания" = some ip) (u : Int) :
    uidDataRows (applyDeletesData data (purgeToDelete headers data)) iu u =
      (authRow? headers data u).toList := by
  have hL : uidDataRows (applyDeletesData data (purgeToDelete headers data)) iu u =
      ((pyEnum 2 data).filter (fun p =>
        !(purgeToDelete headers data).contains p.1 &&
          (purgeRowUid? iu p.2 == some u))).map (fun p => p.2) := by
    unfold uidDataRows applyDeletesData
    exact filter_applyDeletesData (purgeToDelete headers data)
      (fun r => purgeRowUid? iu r == some u) data 2
  rw [hL]
  set g := fun (p : Nat × List String) =>
    !(purgeToDelete headers data).contains p.1 && (purgeRowUid? iu p.2 == some u) with hg
  cases hs : purgeSorted (purgeItems data iu ip u) with
  | nil =>
      have hitemsnil : purgeItems data iu ip u = [] := by
        have hperm := List.perm_insertionSort PuGeP (purgeItems data iu ip u)
        rw [show (purgeItems data iu ip u).insertionSort PuGeP =
          purgeSorted (purgeItems data iu ip u) from rfl, hs] at hperm
        exact hperm.symm.eq_nil
      have hfe : (pyEnum 2 data).filter g = [] := by
        rw [List.filter_eq_nil_iff]
        rintro ⟨j, rr⟩ hmem hq
        rw [hg] at hq
        simp only [Bool.and_eq_true, Bool.not_eq_true'] at hq
        obtain ⟨h2j, hget⟩ := (mem_pyEnum data 2 j rr).mp hmem
        have huid : purgeRowUid? iu rr = some u := eq_of_beq hq.2
        have hin : ((j, rowPu ip rr) : Nat × Option Date) ∈ purgeItems data iu ip u :=
          mem_purgeItems.mpr ⟨h2j, rr, hget, huid, rfl⟩
        rw [hitemsnil] at hin
        cases hin
      rw [hfe]
      have hanone : authRow? headers data u = none := by
        simp only [authRow?, h1, h2]
        rw [hs]
        rfl
      rw [hanone]
      rfl
  | cons b t2 =>
      obtain ⟨hb2, rb, hbget, hbuid, hbpu⟩ := mem_purgeItems.mp
        (show ((b.1, b.2) : Nat × Option Date) ∈ purgeItems data iu ip u from
          mem_purgeSorted.mp (by rw [hs]; exact List.mem_cons_self _ _))
      have hasome : authRow? headers data u = some rb := by
        simp only [authRow?, h1, h2]
        rw [hs, List.head?_cons]
        exact hbget
      rw [hasome]
      have hall : ∀ p ∈ (pyEnum 2 data).filter g, p = ((b.1, rb) : Nat × List String) := by
        rintro ⟨j, rr⟩ hp
        have hpe : (j, rr) ∈ pyEnum 2 data := List.mem_of_mem_filter hp
        have hq : g (j, rr) = true := List.of_mem_filter hp
        rw [hg] at hq
        simp only [Bool.and_eq_true, Bool.not_eq_true'] at hq
        obtain ⟨h2j, hget⟩ := (mem_pyEnum data 2 j rr).mp hpe
        have huid : purgeRowUid? iu rr = some u := eq_of_beq hq.2
        have hnotdel : j ∉ purgeToDelete headers data := by
          intro hmem2
          have hcm := contains_iff_mem.mpr hmem2
          rw [hq.1] at hcm
          cases hcm
        have hbeq : ((j, rowPu ip rr) : Nat × Option Date) = b := by
          by_contra hneq
          exact hnotdel ((row_del_iff h1 h2 hs h2j hget huid).mpr hneq)
        have hj : j = b.1 := congrArg Prod.fst hbeq
        have hrreq : rr = rb := by
          rw [hj] at hget
          exact Option.some.inj (hget.symm.trans hbget)
        rw [hj, hrreq]
      have hbin : ((b.1, rb) : Nat × List String) ∈ (pyEnum 2 data).filter g := by
        refine List.mem_filter.mpr ⟨(mem_pyEnum data 2 b.1 rb).mpr ⟨hb2, hbget⟩, ?_⟩
        have hnotdel : b.1 ∉ purgeToDelete headers data := by
          intro hmem2
          have hne := (row_del_iff h1 h2 hs hb2 hbget hbuid).mp hmem2
          exact hne (by rw [← hbpu])
        have hcf : (purgeToDelete headers data).contains b.1 = false := by
          cases hcc : (purgeToDelete headers data).contains b.1
          · rfl
          · exact absurd (contains_iff_mem.mp hcc) hnotdel
        rw [hg]
        simp only [hcf, hbuid]
        simp
      have hfpw : ((pyEnum 2 data).filter g).Pairwise (fun p q => p.1 < q.1) :=
        List.Pairwise.filter g (pyEnum_pairwise data 2)
      cases hfl : (pyEnum 2 data).filter g with
      | nil =>
          rw [hfl] at hbin
          cases hbin
      | cons p t =>
          have hp1 : p = ((b.1, rb) : Nat × List String) := hall p (by
            rw [hfl]
            exact List.mem_cons_self _ _)
          cases t with
          | nil =>
              rw [hp1]
              rfl
          | cons z t' =>
              exfalso
              have hz : z = ((b.1, rb) : Nat × List String) := hall z (by
                rw [hfl]
                exact List.mem_cons_of_mem _ (List.mem_cons_self _ _))
              rw [hfl] at hfpw
              have hlt := (List.pairwise_cons.mp hfpw).1 z (List.mem_cons_self _ _)
              rw [hp1, hz] at hlt
              simp at hlt

/-- C7: the dedupe pass is idempotent: after deleting the rows marked by one
run, every identity retains exactly its authoritative row (the head of the
descending (period end, row number) sort), a second run selects the same
authoritative row for each identity, and its deletion set is empty. -/
theorem claim_C7_dedupe_idempotent (headers : List String) (data : List (List String))
    (iu ip : Nat)
    (h1 : findCol headers "user_id" = some iu)
    (h2 : findCol headers "дата_окончания" = some ip) :
    (∀ u, uidDataRows (applyDeletesData data (purgeToDelete headers data)) iu u =
        (authRow? headers data u).toList) ∧
    (∀ u, authRow? headers (applyDeletesData data (purgeToDelete headers data)) u =
        authRow? headers data u) ∧
    purgeToDelete headers (applyDeletesData data (purgeToDelete headers data)) = [] := by
  have hpart1 : ∀ u, uidDataRows (applyDeletesData data (purgeToDelete headers data)) iu u =
      (authRow? headers data u).toList := fun u => uidRows_after_purge h1 h2 u
  refine ⟨hpart1, ?_, ?_⟩
  · intro u
    cases ha2 : authRow? headers (applyDeletesData data (purgeToDelete headers data)) u with
    | some r =>
        have hr : r ∈ uidDataRows (applyDeletesData data (purgeToDelete headers data)) iu u :=
          authRow_mem h1 h2 ha2
        rw [hpart1 u] at hr
        exact (Option.mem_def.mp (Option.mem_toList.mp hr)).symm
    | none =>
        cases had : authRow? headers data u with
        | none => rfl
        | some r =>
            exfalso
            have hr : r ∈ uidDataRows (applyDeletesData data (purgeToDelete headers data)) iu u := by
              rw [hpart1 u, had]
              exact List.mem_cons_self _ _
            obtain ⟨r2, hr2⟩ := authRow_of_row h1 h2 hr
            rw [ha2] at hr2
            cases hr2
  · have hlen1 : ∀ v,
        (purgeItems (applyDeletesData data (purgeToDelete headers data)) iu ip v).length ≤ 1 := by
      intro v
      rw [purgeItems_length, hpart1 v]
      cases authRow? headers data v <;> simp [Option.toList]
    have hfm : (purgeUids (applyDeletesData data (purgeToDelete headers data)) iu).flatMap
        (purgeDeleteFor (applyDeletesData data (purgeToDelete headers data)) iu ip) = [] := by
      rw [List.eq_nil_iff_forall_not_mem]
      intro x hx
      obtain ⟨v, hv, hxv⟩ := List.mem_flatMap.mp hx
      have hzero :
          purgeDeleteFor (applyDeletesData data (purgeToDelete headers data)) iu ip v = [] := by
        simp only [purgeDeleteFor]
        rw [if_pos (hlen1 v)]
      rw [hzero] at hxv
      cases hxv
    have hgen : ∀ D2 : List (List String),
        (purgeUids D2 iu).flatMap (purgeDeleteFor D2 iu ip) = [] →
        purgeToDelete headers D2 = [] := by
      intro D2 hD
      simp only [purgeToDelete, h1, h2]
      rw [hD]
      rfl
    exact hgen _ hfm

/-- Witness for C7 at a snapshot holding the same row twice. -/
theorem claim_C7_dedupe_idempotent_witness :
    uidDataRows (applyDeletesData [tieRow, tieRow] (purgeToDelete hdrUP [tieRow, tieRow])) 0 1 =
        (authRow? hdrUP [tieRow, tieRow] 1).toList ∧
      authRow? hdrUP (applyDeletesData [tieRow, tieRow] (purgeToDelete hdrUP [tieRow, tieRow])) 1 =
        authRow? hdrUP [tieRow, tieRow] 1 ∧
      purgeToDelete hdrUP (applyDeletesData [tieRow, tieRow] (purgeToDelete hdrUP [tieRow, tieRow])) = [] :=
  ⟨(claim_C7_dedupe_idempotent hdrUP [tieRow, tieRow] 0 1 (by decide) (by decide)).1 1,
   (claim_C7_dedupe_idempotent hdrUP [tieRow, tieRow] 0 1 (by decide) (by decide)).2.1 1,
   (claim_C7_dedupe_idempotent hdrUP [tieRow, tieRow] 0 1 (by decide) (by decide)).2.2⟩
